import Mathlib

/-!
Verification of the pySMSpp Block tree data model and its netCDF
serialization/deserialization protocol (src/pysmspp/block.py), as a shallow
embedding in Lean 4.

Scalar values (attribute values, variable elements) are modelled by `Val`:
integers, rationals (standing for the exact values held by the container's
native 64-bit floats), and strings.  The four per-node mappings of a Block
are association lists, mirroring Python dicts (insertion order preserved,
assignment to an existing key keeps its position).  The netCDF layer is
modelled only to the extent the code uses it: groups carrying attributes,
sized dimensions (size 0 created as an unlimited dimension), typed variables
whose assignment `var[:] = data` follows numpy semantics (exact shape match,
growth along unlimited axes, or numpy broadcasting to a fully fixed shape),
and nested sub-groups.  Element type tags are canonicalised to the native
element types the code exercises (f8, i8, i4, u4, str, single characters),
matching numpy dtype equality semantics where a dtype read back from a file
compares equal to any alias tag string that denotes it.
-/

namespace PySMSpp

/-- Scalar values: int, real (format-native value, modelled exactly), text. -/
inductive Val where
  | i (n : Int)
  | r (q : ℚ)
  | s (t : String)
deriving DecidableEq

/-- Numeric-aware equality, as Python `==` compares ints and floats. -/
def valEqB : Val → Val → Bool
  | .i a, .i b => a == b
  | .r a, .r b => a == b
  | .i a, .r b => ((a : ℚ) == b)
  | .r a, .i b => (a == (b : ℚ))
  | .s a, .s b => a == b
  | _, _ => false

/-- `Attribute(name, value)` from block.py. -/
structure Attribute where
  name : String
  value : Val
deriving DecidableEq

/-- `Dimension(name, value)` from block.py; sizes are non-negative. -/
structure Dimension where
  name : String
  value : Nat
deriving DecidableEq

/-- A numeric array: row-major flat data together with its shape. -/
structure Tensor where
  shape : List Nat
  flat : List Val
deriving DecidableEq

/-- Native element types of the container format used by the code. -/
inductive NCType where
  | f8 | i8 | i4 | u4 | str | char
deriving DecidableEq

/-- A `var_type` as held by a `Variable`: either a caller-supplied tag string
or a native dtype obtained from reading a file. -/
inductive VType where
  | tag (s : String)
  | native (t : NCType)
deriving DecidableEq

/-- The numpy dtype denoted by a tag string (`np.dtype(tag)`), restricted to
the element types the code exercises; unknown tags make `createVariable`
fail. -/
def dtypeOf : String → Option NCType
  | "f8" => some .f8
  | "float" => some .f8
  | "double" => some .f8
  | "float64" => some .f8
  | "i8" => some .i8
  | "int" => some .i8
  | "int64" => some .i8
  | "i4" => some .i4
  | "int32" => some .i4
  | "u4" => some .u4
  | "uint32" => some .u4
  | "str" => some .str
  | "c" => some .char
  | "S1" => some .char
  | _ => none

/-- Resolve a `VType` to the native element type it denotes. -/
def VType.resolve : VType → Option NCType
  | .tag s => dtypeOf s
  | .native t => some t

/-- `Variable(name, var_type, dimensions, data)` from block.py. -/
structure Variable where
  name : String
  var_type : VType
  dimensions : List String
  data : Tensor
deriving DecidableEq

/-- An entry of a Block's attributes dict: the code stores either a typed
`Attribute` or a bare value (`SMSNetwork.file_type` stores a bare int). -/
inductive AttrCell where
  | obj (a : Attribute)
  | plain (v : Val)
deriving DecidableEq

/-- The value carried by an attributes entry (`attr.value if isinstance(attr,
Attribute) else attr`). -/
def AttrCell.val : AttrCell → Val
  | .obj a => a.value
  | .plain v => v

/-- An entry of a Block's dimensions dict: a `Dimension` or a bare size. -/
inductive DimCell where
  | obj (d : Dimension)
  | plain (n : Nat)
deriving DecidableEq

/-- The size carried by a dimensions entry. -/
def DimCell.val : DimCell → Nat
  | .obj d => d.value
  | .plain n => n

/-- The recursive Block container: four name-keyed mappings (attributes,
dimensions, variables, sub-blocks), each an insertion-ordered assoc list. -/
inductive Block where
  | mk (attributes : List (String × AttrCell)) (dimensions : List (String × DimCell))
       (vars : List (String × Variable)) (blocks : List (String × Block))

/-- The attributes mapping of a block. -/
def Block.attributes : Block → List (String × AttrCell)
  | .mk a _ _ _ => a

/-- The dimensions mapping of a block. -/
def Block.dimensions : Block → List (String × DimCell)
  | .mk _ d _ _ => d

/-- The variables mapping of a block. -/
def Block.vars : Block → List (String × Variable)
  | .mk _ _ v _ => v

/-- The sub-blocks mapping of a block. -/
def Block.blocks : Block → List (String × Block)
  | .mk _ _ _ b => b

/-- Replace the attributes mapping. -/
def Block.withAttributes : Block → List (String × AttrCell) → Block
  | .mk _ d v bs, a => .mk a d v bs

/-- Replace the dimensions mapping. -/
def Block.withDimensions : Block → List (String × DimCell) → Block
  | .mk a _ v bs, d => .mk a d v bs

/-- Replace the variables mapping. -/
def Block.withVars : Block → List (String × Variable) → Block
  | .mk a d _ bs, v => .mk a d v bs

/-- Replace the sub-blocks mapping. -/
def Block.withBlocks : Block → List (String × Block) → Block
  | .mk a d v _, bs => .mk a d v bs

/-- `Block()`: a fresh block with four empty mappings. -/
def Block.empty : Block := .mk [] [] [] []

/-- Key membership in an assoc list, as `name in dict`. -/
def hasKey (l : List (String × α)) (k : String) : Bool :=
  (l.lookup k).isSome

/-- Python dict assignment `d[k] = v`: overwrite in place if `k` is present
(keeping its position), else append. -/
def insertOver : List (String × α) → String → α → List (String × α)
  | [], k, v => [(k, v)]
  | (k', v') :: t, k, v => if k' = k then (k, v) :: t else (k', v') :: insertOver t k v

/-- Error conditions surfaced by the code (all `ValueError`/exceptions in
Python); the abstract names follow the spec's taxonomy. -/
inductive Err where
  | dup | notFound | ambiguous | missingAttr | fileExists | shapeMismatch
  | typeErr | valueErr | unsupported
deriving DecidableEq

/-- `Block.add_attribute(name, value, force=...)`: the single-value-argument
form; the argument is a bare value or an already-typed `Attribute`.  Returns
the stored Attribute together with the post-state of the block (unchanged on
error, since the duplicate check raises before any mutation). -/
def Block.add_attribute (b : Block) (name : String) (arg : Sum Val Attribute)
    (force : Bool) : Except Err Attribute × Block :=
  if !force && hasKey b.attributes name then (.error .dup, b)
  else
    let a : Attribute := match arg with
      | .inl v => ⟨name, v⟩
      | .inr a0 => a0
    (.ok a, b.withAttributes (insertOver b.attributes name (.obj a)))

/-- `Block.add_dimension(name, value, force=...)`, single-value form. -/
def Block.add_dimension (b : Block) (name : String) (arg : Sum Nat Dimension)
    (force : Bool) : Except Err Dimension × Block :=
  if !force && hasKey b.dimensions name then (.error .dup, b)
  else
    let d : Dimension := match arg with
      | .inl n => ⟨name, n⟩
      | .inr d0 => d0
    (.ok d, b.withDimensions (insertOver b.dimensions name (.obj d)))

/-- Argument forms accepted by `Block.add_variable`: a fully built Variable
as the single positional argument, or the three remaining constituent
fields. -/
inductive VarArg where
  | obj (v : Variable)
  | fields (var_type : VType) (dimensions : List String) (data : Tensor)

/-- `Block.add_variable(name, ...)`. -/
def Block.add_variable (b : Block) (name : String) (arg : VarArg)
    (force : Bool) : Except Err Variable × Block :=
  if !force && hasKey b.vars name then (.error .dup, b)
  else
    let v : Variable := match arg with
      | .obj v0 => v0
      | .fields t d dat => ⟨name, t, d, dat⟩
    (.ok v, b.withVars (insertOver b.vars name v))

/-- `Block.block_type` getter: the unwrapped value of the `type` attribute,
or `none` when unset (`ignore_missing` defaults to true). -/
def Block.block_type (b : Block) : Option Val :=
  match b.attributes.lookup "type" with
  | some c => some c.val
  | none => none

/-- `Block.block_type` setter: stores `Attribute("type", s)`. -/
def Block.set_block_type (b : Block) (s : String) : Block :=
  b.withAttributes (insertOver b.attributes "type" (.obj ⟨"type", .s s⟩))

/-- The store-an-existing-Block branches of `Block.add_block` (a prebuilt
sub-block given positionally or as the `block=` keyword). -/
def Block.add_block_obj (b : Block) (name : String) (sub : Block)
    (force : Bool) : Except Err Block × Block :=
  if !force && hasKey b.blocks name then (.error .dup, b)
  else
    let b' := b.withBlocks (insertOver b.blocks name sub)
    (.ok b', b')

/-- A row of a block type's schema table (one line of data/blocks/T.csv):
the declared attribute name and its `smspp_object` role column. -/
structure SchemaRow where
  attr : String
  smspp_object : String
deriving DecidableEq

/-- The schema table of one block type, rows in file order. -/
abbrev SchemaTable := List SchemaRow

/-- The global `blocks` table: block type name to its schema table. -/
abbrev SchemaDB := List (String × SchemaTable)

/-- Python `attr_name.startswith(x)`: `x`'s characters lead `attr_name`. -/
def startsWithB (s pre : String) : Bool :=
  pre.data.isPrefixOf s.data

/-- `get_attr_field(block_type, attr_name)` from block.py: exact match
against the rows whose role is not `Block`; otherwise the rows with role
`Block` whose declared name is a leading piece of `attr_name` are collected,
and exactly one such row is required (zero is an unknown-attribute error,
two or more an ambiguous-attribute error); the resolved row is then fetched
from the full table by name. -/
def get_attr_field (db : SchemaDB) (block_type : String) (attr_name : String) :
    Except Err SchemaRow :=
  match db.lookup block_type with
  | none => .error .notFound
  | some tbl =>
    let block_attrs := tbl.filter (fun row => row.smspp_object == "Block")
    let simple_attrs := tbl.filter (fun row => row.smspp_object != "Block")
    if simple_attrs.any (fun row => row.attr == attr_name) then
      match tbl.find? (fun row => row.attr == attr_name) with
      | some row => .ok row
      | none => .error .notFound
    else
      match block_attrs.filter (fun row => startsWithB attr_name row.attr) with
      | [row] =>
        match tbl.find? (fun r0 => r0.attr == row.attr) with
        | some r1 => .ok r1
        | none => .error .notFound
      | [] => .error .notFound
      | _ => .error .ambiguous

/-- The global `components` table: component class name to its `nctype`. -/
abbrev CompDB := List (String × String)

/-- A value passed for a single keyword field of `from_kwargs` or as the
single positional argument of `add`: a bare scalar or one of the entity
objects. -/
inductive KwVal where
  | val (v : Val)
  | attr (a : Attribute)
  | dim (d : Dimension)
  | var (v : Variable)
  | blk (b : Block)

/-- What an `add_*` call returns: the created entity, or (for `add_block`)
the parent block itself. -/
inductive AddRet where
  | attr (a : Attribute)
  | dim (d : Dimension)
  | var (v : Variable)
  | blk (b : Block)

/-- `Block.add(component_name, name, value)` restricted to a single
positional value: looks up the component's `nctype` and dispatches to the
matching `add_*` method.  Non-scalar values under the Attribute/Dimension
roles and non-entity values under the Variable/Block roles are modelled as
errors (the code would wrap garbage or fail an assertion there). -/
def Block.addPos (comp : CompDB) (b : Block) (component_name name : String)
    (v : KwVal) (force : Bool) : Except Err AddRet × Block :=
  match comp.lookup component_name with
  | none => (.error .unsupported, b)
  | some nctype =>
    if nctype = "Attribute" then
      match v with
      | .val x =>
        let r := b.add_attribute name (.inl x) force
        (r.1.map .attr, r.2)
      | .attr a =>
        let r := b.add_attribute name (.inr a) force
        (r.1.map .attr, r.2)
      | _ => (.error .valueErr, b)
    else if nctype = "Dimension" then
      match v with
      | .val (.i n) =>
        if 0 ≤ n then
          let r := b.add_dimension name (.inl n.toNat) force
          (r.1.map .dim, r.2)
        else (.error .valueErr, b)
      | .dim d =>
        let r := b.add_dimension name (.inr d) force
        (r.1.map .dim, r.2)
      | _ => (.error .valueErr, b)
    else if nctype = "Variable" then
      match v with
      | .var v0 =>
        let r := b.add_variable name (.obj v0) force
        (r.1.map .var, r.2)
      | _ => (.error .valueErr, b)
    else if nctype = "Block" then
      match v with
      | .blk sub =>
        let r := b.add_block_obj name sub force
        (r.1.map .blk, r.2)
      | _ => (.error .valueErr, b)
    else (.error .valueErr, b)

/-- `Block.from_kwargs(block_type=..., **fields)`: sets the type attribute
first when given, then resolves every field through `get_attr_field` keyed
on the block's current type and dispatches through `add`.  Mutations made
before a failing field persist, as in the Python original.  On success the
returned value is the block itself (chaining). -/
def Block.from_kwargs (comp : CompDB) (db : SchemaDB) (b : Block)
    (block_type : Option String) (fields : List (String × KwVal)) :
    Except Err Block × Block :=
  let b0 := match block_type with
    | some s => b.set_block_type s
    | none => b
  go b0 fields
where go (b : Block) : List (String × KwVal) → Except Err Block × Block
  | [] => (.ok b, b)
  | (key, v) :: rest =>
    match b.block_type with
    | some (.s bt) =>
      match get_attr_field db bt key with
      | .error e => (.error e, b)
      | .ok row =>
        match b.addPos comp row.smspp_object key v false with
        | (.ok _, b') => go b' rest
        | (.error e, b') => (.error e, b')
    | _ => (.error .notFound, b)

/-- Argument forms of `Block.add_block(name, ...)`: a prebuilt Block given
positionally, the `block=` keyword, or a keyword payload handed to
`Block().from_kwargs(...)` (with the `block_type` the generic `add` threads
through, if any). -/
inductive ABArg where
  | posBlock (sub : Block)
  | blockKw (sub : Block)
  | kwFields (block_type : Option String) (fields : List (String × KwVal))

/-- `Block.add_block(name, ...)`: duplicate check first, then stores the
given sub-block or builds one from the keyword payload; returns `self`. -/
def Block.add_block (comp : CompDB) (db : SchemaDB) (b : Block) (name : String)
    (arg : ABArg) (force : Bool) : Except Err Block × Block :=
  if !force && hasKey b.blocks name then (.error .dup, b)
  else
    match arg with
    | .posBlock sub =>
      let b' := b.withBlocks (insertOver b.blocks name sub)
      (.ok b', b')
    | .blockKw sub =>
      let b' := b.withBlocks (insertOver b.blocks name sub)
      (.ok b', b')
    | .kwFields bt fields =>
      match Block.from_kwargs comp db Block.empty bt fields with
      | (.error e, _) => (.error e, b)
      | (.ok sub, _) =>
        let b' := b.withBlocks (insertOver b.blocks name sub)
        (.ok b', b')

/-- Argument forms of the generic `Block.add`. -/
inductive AddArg where
  | pos (v : KwVal)
  | blockKw (sub : Block)
  | kwFields (fields : List (String × KwVal))

/-- `Block.add(component_name, name, ...)`: the generic mutation entry
point; for the `Block` role the call is forwarded to `add_block` with
`block_type=component_name` added to the keyword payload. -/
def Block.add (comp : CompDB) (db : SchemaDB) (b : Block)
    (component_name name : String) (arg : AddArg) (force : Bool) :
    Except Err AddRet × Block :=
  match comp.lookup component_name with
  | none => (.error .unsupported, b)
  | some nctype =>
    if nctype = "Block" then
      let abArg := match arg with
        | .pos (.blk sub) => some (ABArg.posBlock sub)
        | .blockKw sub => some (ABArg.blockKw sub)
        | .kwFields fields => some (ABArg.kwFields (some component_name) fields)
        | .pos _ => none
      match abArg with
      | none => (.error .valueErr, b)
      | some a0 =>
        let r := b.add_block comp db name a0 force
        (r.1.map .blk, r.2)
    else
      match arg with
      | .pos v => b.addPos comp component_name name v force
      | _ => (.error .valueErr, b)

/-- A netCDF dimension: its current size and whether it was created
unlimited (`createDimension(name, 0)`). -/
structure NCDim where
  size : Nat
  unlim : Bool
deriving DecidableEq

/-- A netCDF variable: name, native element type, referenced dimension
names, stored data. -/
structure NCVar where
  name : String
  ty : NCType
  dims : List String
  data : Tensor
deriving DecidableEq

/-- A netCDF group (or root dataset): attributes, dimensions, variables and
nested sub-groups, each kept in creation order. -/
inductive NCGroup where
  | mk (attrs : List (String × Val)) (dims : List (String × NCDim))
       (vars : List NCVar) (groups : List (String × NCGroup))

/-- The attributes of a group. -/
def NCGroup.attrs : NCGroup → List (String × Val)
  | .mk a _ _ _ => a

/-- The dimensions of a group. -/
def NCGroup.dims : NCGroup → List (String × NCDim)
  | .mk _ d _ _ => d

/-- The variables of a group. -/
def NCGroup.vars : NCGroup → List NCVar
  | .mk _ _ v _ => v

/-- The nested sub-groups of a group. -/
def NCGroup.groups : NCGroup → List (String × NCGroup)
  | .mk _ _ _ g => g

/-- The kind of a single write performed during serialization. -/
inductive EvKind where
  | attrW | dimW | varW | grpW
deriving DecidableEq

/-- One write event: which group (by path from the root), which kind of
entity, which name. -/
structure Ev where
  path : List String
  kind : EvKind
  name : String
deriving DecidableEq

/-- Conversion of one scalar into a variable's native element type, as numpy
`astype` behaves on the values the code exercises; unrepresentable values
are modelled as conversion failures. -/
def convVal : NCType → Val → Option Val
  | .f8, .i n => some (.r n)
  | .f8, .r q => some (.r q)
  | .i8, .i n => if -(2 ^ 63) ≤ n ∧ n < 2 ^ 63 then some (.i n) else none
  | .i8, .r q => if q.den = 1 ∧ -(2 ^ 63) ≤ q.num ∧ q.num < 2 ^ 63 then some (.i q.num) else none
  | .i4, .i n => if -(2 ^ 31) ≤ n ∧ n < 2 ^ 31 then some (.i n) else none
  | .i4, .r q => if q.den = 1 ∧ -(2 ^ 31) ≤ q.num ∧ q.num < 2 ^ 31 then some (.i q.num) else none
  | .u4, .i n => if 0 ≤ n ∧ n < 2 ^ 32 then some (.i n) else none
  | .u4, .r q => if q.den = 1 ∧ 0 ≤ q.num ∧ q.num < 2 ^ 32 then some (.i q.num) else none
  | .str, .s t => some (.s t)
  | .char, .s t => if t.length = 1 then some (.s t) else none
  | _, _ => none

/-- Convert a list of scalars to a native type; any failure fails all. -/
def convFlat (ty : NCType) : List Val → Option (List Val)
  | [] => some []
  | v :: t =>
    match convVal ty v, convFlat ty t with
    | some w, some ws => some (w :: ws)
    | _, _ => none

/-- Convert a whole tensor's elements to a native type (shape unchanged). -/
def convTensor (ty : NCType) (t : Tensor) : Option Tensor :=
  (convFlat ty t.flat).map (fun l => ⟨t.shape, l⟩)

/-- numpy `broadcast_to` shape compatibility: align trailing axes, each
source axis must equal the target axis or be 1. -/
def bcastShapeOK (dshape sshape : List Nat) : Bool :=
  dshape.length ≤ sshape.length &&
    ((List.replicate (sshape.length - dshape.length) 1 ++ dshape).zip sshape).all
      (fun p => p.1 == p.2 || p.1 == 1)

/-- All multi-indices of a shape, in row-major order. -/
def allIdx : List Nat → List (List Nat)
  | [] => [[]]
  | n :: rest => (List.range n).flatMap (fun j => (allIdx rest).map (j :: ·))

/-- Row-major flat position of a multi-index in a shape. -/
def flatIdx : List Nat → List Nat → Nat
  | _ :: st, j :: it => j * st.prod + flatIdx st it
  | _, _ => 0

/-- Element of a flat row-major array at a multi-index. -/
def tGet (dshape : List Nat) (flat : List Val) (idx : List Nat) : Val :=
  flat.getD (flatIdx dshape idx) (.i 0)

/-- numpy `broadcast_to`: expand a tensor to a target shape by padding the
shape with leading 1-axes and repeating along 1-sized axes. -/
def bcastTensor (t : Tensor) (S : List Nat) : Tensor :=
  let dsh := List.replicate (S.length - t.shape.length) 1 ++ t.shape
  ⟨S, (allIdx S).map (fun I =>
    tGet dsh t.flat ((dsh.zip I).map (fun p => if p.1 = 1 then 0 else p.2)))⟩

/-- A data shape fits the declared axes directly when ranks agree and every
fixed axis matches exactly (unlimited axes take the data's extent). -/
def matchShape (S : List NCDim) (sh : List Nat) : Bool :=
  S.length == sh.length && (S.zip sh).all (fun p => p.1.unlim || p.1.size == p.2)

/-- The netCDF assignment `var[:] = data`: store directly on a direct shape
fit, else broadcast to a fully fixed declared shape, else fail. -/
def setVar (S : List NCDim) (t : Tensor) : Option Tensor :=
  if matchShape S t.shape then some t
  else if S.all (fun d => !d.unlim) && bcastShapeOK t.shape (S.map (·.size)) then
    some (bcastTensor t (S.map (·.size)))
  else none

/-- `createDimension(name, n)`: fails if the name is already declared in the
group; size 0 creates an unlimited dimension. -/
def createDim (cur : List (String × NCDim)) (name : String) (n : Nat) :
    Except Err (List (String × NCDim)) :=
  if hasKey cur name then .error .dup else .ok (cur ++ [(name, ⟨n, n == 0⟩)])

/-- Write a block's dimensions into a group, in insertion order, recording
one event per write. -/
def writeDims (path : List String) (cur : List (String × NCDim)) :
    List (String × DimCell) → Except Err (List (String × NCDim) × List Ev)
  | [] => .ok (cur, [])
  | (k, c) :: rest => do
    let cur' ← createDim cur k c.val
    let (fin, evs) ← writeDims path cur' rest
    .ok (fin, (⟨path, .dimW, k⟩ : Ev) :: evs)

/-- netCDF dimension lookup for a variable: the group's own dimensions
shadow those of enclosing groups. -/
def lookupDim (own env : List (String × NCDim)) (nm : String) : Option NCDim :=
  match own.lookup nm with
  | some d => some d
  | none => env.lookup nm

/-- Resolve all referenced dimension names of a variable. -/
def resolveDims (own env : List (String × NCDim)) : List String → Option (List NCDim)
  | [] => some []
  | nm :: rest =>
    match lookupDim own env nm, resolveDims own env rest with
    | some d, some ds => some (d :: ds)
    | _, _ => none

/-- After an assignment, unlimited dimensions of the group grow to cover the
stored extent along their axis. -/
def growDims (own : List (String × NCDim)) (names : List String)
    (sh : List Nat) : List (String × NCDim) :=
  (names.zip sh).foldl
    (fun acc p =>
      acc.map (fun q =>
        if q.1 == p.1 && q.2.unlim then (q.1, ⟨max q.2.size p.2, true⟩) else q))
    own

/-- `grp.createVariable(key, var_type, dimensions)` followed by
`var[:] = data`: resolve the element type and the axes, convert the data,
store it, and grow unlimited axes. -/
def createVariable (own env : List (String × NCDim)) (key : String)
    (v : Variable) : Except Err (NCVar × List (String × NCDim)) := do
  let some τ := v.var_type.resolve | .error .typeErr
  let some S := resolveDims own env v.dimensions | .error .notFound
  let some conv := convTensor τ v.data | .error .typeErr
  let some stored := setVar S conv | .error .shapeMismatch
  .ok (⟨key, τ, v.dimensions, stored⟩, growDims own v.dimensions stored.shape)

/-- Write a block's variables into a group, in insertion order; a repeated
variable name is a netCDF error. -/
def writeVars (path : List String) (own env : List (String × NCDim))
    (acc : List NCVar) :
    List (String × Variable) →
    Except Err (List NCVar × List (String × NCDim) × List Ev)
  | [] => .ok (acc, own, [])
  | (k, v) :: rest =>
    if acc.any (fun w => w.name == k) then .error .dup
    else do
      let (w, own') ← createVariable own env k v
      let (ws, ownF, evs) ← writeVars path own' env (acc ++ [w]) rest
      .ok (ws, ownF, (⟨path, .varW, k⟩ : Ev) :: evs)

/-- `Block._to_netcdf_helper`: write attributes (unwrapping typed
Attributes; `setncattr` on a repeated name silently overwrites), then
dimensions, then variables, then recursively one sub-group per sub-block,
each category in insertion order.  `env` holds the dimensions of enclosing
groups, `path` the group's location for the event trace. -/
def to_netcdf_helper (env : List (String × NCDim)) (path : List String) :
    Block → Except Err (NCGroup × List Ev)
  | .mk attrs dims vars blks => do
    let aList := attrs.foldl (fun acc p => insertOver acc p.1 p.2.val) []
    let aEvs := attrs.map (fun p => (⟨path, .attrW, p.1⟩ : Ev))
    let (dState, dEvs) ← writeDims path [] dims
    let (vList, dState', vEvs) ← writeVars path dState env [] vars
    let (gList, gEvs) ← writeGroups (dState' ++ env) path [] blks
    .ok (⟨aList, dState', vList, gList⟩, aEvs ++ dEvs ++ vEvs ++ gEvs)
where writeGroups (env' : List (String × NCDim)) (path : List String)
    (acc : List (String × NCGroup)) :
    List (String × Block) → Except Err (List (String × NCGroup) × List Ev)
  | [] => .ok (acc, [])
  | (k, sub) :: rest => do
    if hasKey acc k then .error .dup
    else
      let (g, evs) ← to_netcdf_helper env' (path ++ [k]) sub
      let (gs, evs') ← writeGroups env' path (acc ++ [(k, g)]) rest
      .ok (gs, ((⟨path, .grpW, k⟩ : Ev) :: evs) ++ evs')

@[simp] theorem bind_ok_ex (a : α) (f : α → Except ε β) :
    (do let x ← (Except.ok a : Except ε α); f x) = f a := rfl

@[simp] theorem bind_error_ex (e : ε) (f : α → Except ε β) :
    (do let x ← (Except.error e : Except ε α); f x) = (Except.error e : Except ε β) := rfl

/-- A file system: path to serialized root group. -/
abbrev FS := List (String × NCGroup)

/-- `Block.to_netcdf(fp, force=...)`: the existence check runs before the
destination is opened; without `force` an existing file is untouched.  With
the path clear, `nc.Dataset(fp, "w")` truncates the destination at once, so
a failing serialization leaves an empty file behind. -/
def to_netcdf (fs : FS) (fp : String) (b : Block) (force : Bool) :
    Except Err Unit × FS :=
  if !force && hasKey fs fp then (.error .fileExists, fs)
  else
    match to_netcdf_helper [] [] b with
    | .ok (g, _) => (.ok (), insertOver fs fp g)
    | .error e => (.error e, insertOver fs fp (NCGroup.mk [] [] [] []))

/-- The attribute-loading loop of `Block._from_netcdf`:
`add_attribute(name, value, force=True)` per native attribute. -/
def loadAttrs (b : Block) : List (String × Val) → Except Err Block
  | [] => .ok b
  | (k, v) :: rest =>
    match b.add_attribute k (.inl v) true with
    | (.ok _, b') => loadAttrs b' rest
    | (.error e, _) => .error e

/-- The dimension-loading loop of `Block._from_netcdf`:
`add_dimension(dimname, dimobj.size)` (no force). -/
def loadDims (b : Block) : List (String × NCDim) → Except Err Block
  | [] => .ok b
  | (k, d) :: rest =>
    match b.add_dimension k (.inl d.size) false with
    | (.ok _, b') => loadDims b' rest
    | (.error e, _) => .error e

/-- The variable-loading loop of `Block._from_netcdf`:
`add_variable(varname, var_type=dtype, dimensions=..., data=...)`. -/
def loadVars (b : Block) : List NCVar → Except Err Block
  | [] => .ok b
  | w :: rest =>
    match b.add_variable w.name (.fields (.native w.ty) w.dims w.data) false with
    | (.ok _, b') => loadVars b' rest
    | (.error e, _) => .error e

/-- `Block._from_netcdf`: build a fresh block, then load attributes,
dimensions, variables, and recursively each sub-group as a sub-block stored
under the group's own name. -/
def from_netcdf_group : NCGroup → Except Err Block
  | .mk attrs dims vars groups => do
    let b1 ← loadAttrs Block.empty attrs
    let b2 ← loadDims b1 dims
    let b3 ← loadVars b2 vars
    goGroups b3 groups
where goGroups (b : Block) : List (String × NCGroup) → Except Err Block
  | [] => .ok b
  | (k, g) :: rest => do
    let sub ← from_netcdf_group g
    match b.add_block_obj k sub false with
    | (.ok _, b') => goGroups b' rest
    | (.error e, _) => .error e

/-- `Block.__init__`: when a document path is given its contents are loaded
and the explicit maps are ignored; otherwise the block is assembled from
the explicit maps (absent maps default to empty). -/
def Block.init (doc : Option NCGroup) (attributes : List (String × AttrCell))
    (dimensions : List (String × DimCell)) (vars : List (String × Variable))
    (blocks : List (String × Block)) : Except Err Block :=
  match doc with
  | some g => from_netcdf_group g
  | none => .ok (.mk attributes dimensions vars blocks)

/-- `SMSNetwork.__init__` without a path: a fresh block whose
`SMS++_file_type` attribute is set to the given enumerant as a bare int
(the `file_type` setter). -/
def network_new (ft : Int) : Block :=
  Block.empty.withAttributes
    (insertOver Block.empty.attributes "SMS++_file_type" (.plain (.i ft)))

/-- `SMSNetwork()` with the default `file_type=SMSFileType.eProbFile`. -/
def network_default : Block := network_new 0

/-- The `SMSNetwork.file_type` getter:
`SMSFileType(self._attributes["SMS++_file_type"])` — a missing key or a
value that is not one of the four enumerants raises. -/
def file_type (b : Block) : Except Err Int :=
  match b.attributes.lookup "SMS++_file_type" with
  | none => .error .notFound
  | some (.plain (.i n)) => if 0 ≤ n ∧ n < 4 then .ok n else .error .valueErr
  | some _ => .error .valueErr

/-- `SMSNetwork._from_netcdf`: load the tree as a Block, then read the
root's `SMS++_file_type` native attribute (an absent attribute raises), and
rebuild a network whose file-type attribute is stored bare through the
setter. -/
def sms_from_netcdf (g : NCGroup) : Except Err Block := do
  let blk ← from_netcdf_group g
  match g.attrs.lookup "SMS++_file_type" with
  | none => .error .missingAttr
  | some (.i n) =>
    .ok (blk.withAttributes (insertOver blk.attributes "SMS++_file_type" (.plain (.i n))))
  | some _ => .error .valueErr

/-- Element-wise tensor equality: same shape, same values (numeric values
compared as Python `==` does across int/float). -/
def tensorEqB (t u : Tensor) : Bool :=
  t.shape == u.shape && t.flat.length == u.flat.length &&
    (t.flat.zip u.flat).all (fun p => valEqB p.1 p.2)

/-- Type-tag equality as numpy dtype `==` behaves: two `var_type`s are the
same when they denote the same native element type (a dtype read from a file
compares equal to every alias tag string of that dtype). -/
def typeTagEqB (a b : VType) : Bool :=
  match a.resolve, b.resolve with
  | some x, some y => x == y
  | _, _ => false

/-- Variable equality at the claim's granularity: same axis-name tuple, same
type tag, same data (names are compared as the mapping keys). -/
def varEqB (v w : Variable) : Bool :=
  v.dimensions == w.dimensions && typeTagEqB v.var_type w.var_type &&
    tensorEqB v.data w.data

/-- Structural equality of two Block trees in the round-trip sense: the same
attribute name/value pairs, the same dimension name/value pairs, the same
variables (key, type tag, axis names, data), the same child names with
recursively equal content. -/
def blockEquivB : Block → Block → Bool
  | .mk a d v bs, .mk a' d' v' bs' =>
    a.length == a'.length &&
      (a.zip a').all (fun p => p.1.1 == p.2.1 && valEqB p.1.2.val p.2.2.val) &&
    d.length == d'.length &&
      (d.zip d').all (fun p => p.1.1 == p.2.1 && p.1.2.val == p.2.2.val) &&
    v.length == v'.length &&
      (v.zip v').all (fun p => p.1.1 == p.2.1 && varEqB p.1.2 p.2.2) &&
    go bs bs'
where go : List (String × Block) → List (String × Block) → Bool
  | [], [] => true
  | (n, b) :: t, (n', b') :: t' => n == n' && blockEquivB b b' && go t t'
  | _, _ => false

/-- No repeated key in an assoc list (the invariant of a Python dict). -/
def nodupKeysB : List (String × α) → Bool
  | [] => true
  | (k, _) :: t => !(hasKey t k) && nodupKeysB t

/-- Every node of a Block tree has duplicate-free keys in each of its four
mappings — the invariant every tree built through the mutation API has. -/
def wellFormedB : Block → Bool
  | .mk a d v bs =>
    nodupKeysB a && nodupKeysB d && nodupKeysB v && nodupKeysB bs && go bs
where go : List (String × Block) → Bool
  | [] => true
  | (_, sub) :: t => wellFormedB sub && go t

/-- The dimension table a node contributes, as the serializer declares it. -/
def declDims (dims : List (String × DimCell)) : List (String × NCDim) :=
  dims.map (fun p => (p.1, ⟨p.2.val, p.2.val == 0⟩))

/-- Every variable's data shape equals the sizes of its declared dimensions
(resolved against the node's own dimensions, then the enclosing ones) — the
no-broadcasting, no-unlimited-growth regime, recursively at every node. -/
def exactShapesB (env : List (String × NCDim)) : Block → Bool
  | .mk _ dims vars bs =>
    let own := declDims dims
    vars.all (fun p =>
      match resolveDims own env p.2.dimensions with
      | some S => S.map (·.size) == p.2.data.shape
      | none => false) && go (own ++ env) bs
where go (env' : List (String × NCDim)) : List (String × Block) → Bool
  | [] => true
  | (_, sub) :: t => exactShapesB env' sub && go env' t

/-- Descend a Block tree along a path of sub-block names. -/
def getPath : Block → List String → Option Block
  | b, [] => some b
  | b, k :: rest =>
    match b.blocks.lookup k with
    | some sub => getPath sub rest
    | none => none

/-- A block built through the mutation API whose variable declares one axis
`T` of size 2 but carries scalar data: the netCDF assignment broadcasts the
scalar over the axis. -/
def bcastBlock : Block :=
  ((Block.empty.add_dimension "T" (.inl 2) false).2.add_variable "x"
    (.fields (.tag "float") ["T"] ⟨[], [.i 5]⟩) false).2

/-- The group `bcastBlock` serializes to: the scalar has been filled. -/
def bcastG : NCGroup :=
  .mk [] [("T", ⟨2, false⟩)]
    [⟨"x", .f8, ["T"], ⟨[2], [.r ((5 : Int) : ℚ), .r ((5 : Int) : ℚ)]⟩⟩] []

/-- The write trace of serializing `bcastBlock`. -/
def bcastTr : List Ev := [⟨[], .dimW, "T"⟩, ⟨[], .varW, "x"⟩]

/-- The block read back from `bcastG`: the variable's data now has shape
`[2]`. -/
def bcastRead : Block :=
  .mk [] [("T", .obj ⟨"T", 2⟩)]
    [("x", ⟨"x", .native .f8, ["T"], ⟨[2], [.r ((5 : Int) : ℚ), .r ((5 : Int) : ℚ)]⟩⟩)] []

example : to_netcdf_helper [] [] bcastBlock = .ok (bcastG, bcastTr) := rfl

example : from_netcdf_group bcastG = .ok bcastRead := rfl

example : blockEquivB bcastBlock bcastRead = false := rfl

example : exactShapesB [] bcastBlock = false := rfl

example : wellFormedB bcastBlock = true := rfl

example : (Block.empty.add_attribute "x" (.inl (.i 1)) false).1 = .ok ⟨"x", .i 1⟩ := rfl

example :
    ((Block.empty.add_attribute "x" (.inl (.i 1)) false).2.add_attribute "x"
      (.inl (.i 2)) false).1 = .error .dup := rfl

/-! ### Basic lemmas about the assoc-list operations and accessors -/

@[simp] theorem Block.attributes_mk (a d v bs) : (Block.mk a d v bs).attributes = a := rfl

@[simp] theorem Block.dimensions_mk (a d v bs) : (Block.mk a d v bs).dimensions = d := rfl

@[simp] theorem Block.vars_mk (a d v bs) : (Block.mk a d v bs).vars = v := rfl

@[simp] theorem Block.blocks_mk (a d v bs) : (Block.mk a d v bs).blocks = bs := rfl

@[simp] theorem Block.withAttributes_mk (a d v bs x) :
    (Block.mk a d v bs).withAttributes x = .mk x d v bs := rfl

@[simp] theorem Block.withDimensions_mk (a d v bs x) :
    (Block.mk a d v bs).withDimensions x = .mk a x v bs := rfl

@[simp] theorem Block.withVars_mk (a d v bs x) :
    (Block.mk a d v bs).withVars x = .mk a d x bs := rfl

@[simp] theorem Block.withBlocks_mk (a d v bs x) :
    (Block.mk a d v bs).withBlocks x = .mk a d v x := rfl

@[simp] theorem hasKey_nil (k : String) : hasKey ([] : List (String × α)) k = false := rfl

theorem hasKey_cons (k k' : String) (v : α) (t : List (String × α)) :
    hasKey ((k', v) :: t) k = ((k == k') || hasKey t k) := by
  by_cases h : k = k'
  · have hbe : (k == k') = true := by simp [h]
    simp [hasKey, List.lookup, hbe]
  · have hbe : (k == k') = false := by simp [h]
    simp [hasKey, List.lookup, hbe]

theorem lookup_insertOver_self (l : List (String × α)) (k : String) (v : α) :
    (insertOver l k v).lookup k = some v := by
  induction l with
  | nil => simp [insertOver, List.lookup]
  | cons h t ih =>
    obtain ⟨k', v'⟩ := h
    by_cases hk : k' = k
    · simp [insertOver, hk, List.lookup]
    · have hk2 : (k == k') = false := by
        simp [beq_iff_eq]
        exact fun h2 => hk h2.symm
      simp [insertOver, hk, List.lookup, hk2, ih]

theorem insertOver_fresh (l : List (String × α)) (k : String) (v : α)
    (h : hasKey l k = false) : insertOver l k v = l ++ [(k, v)] := by
  induction l with
  | nil => rfl
  | cons p t ih =>
    obtain ⟨k', v'⟩ := p
    rw [hasKey_cons] at h
    simp only [Bool.or_eq_false_iff, beq_eq_false_iff_ne, ne_eq] at h
    have hne : ¬(k' = k) := fun hx => h.1 hx.symm
    simp [insertOver, hne, ih h.2]

theorem lookup_none_of_hasKey_false (l : List (String × α)) (k : String)
    (h : hasKey l k = false) : l.lookup k = none := by
  cases hl : l.lookup k with
  | none => rfl
  | some x => simp [hasKey, hl] at h

theorem not_mem_keys_of_hasKey_false (l : List (String × α)) (k : String)
    (h : hasKey l k = false) : ∀ p ∈ l, p.1 ≠ k := by
  induction l with
  | nil => intro p hp; cases hp
  | cons q t ih =>
    obtain ⟨k', v'⟩ := q
    rw [hasKey_cons] at h
    simp only [Bool.or_eq_false_iff, beq_eq_false_iff_ne, ne_eq] at h
    intro p hp
    rw [List.mem_cons] at hp
    rcases hp with hp | hp
    · subst hp; exact fun hx => h.1 hx.symm
    · exact ih h.2 p hp

theorem lookup_of_mem_nodup (l : List (String × α)) (k : String) (x : α)
    (hnd : nodupKeysB l = true) (hm : (k, x) ∈ l) : l.lookup k = some x := by
  induction l with
  | nil => cases hm
  | cons q t ih =>
    obtain ⟨k', v'⟩ := q
    simp only [nodupKeysB, Bool.and_eq_true, Bool.not_eq_true'] at hnd
    rw [List.mem_cons] at hm
    rcases hm with hm | hm
    · rw [Prod.mk.injEq] at hm
      obtain ⟨h1, h2⟩ := hm
      subst h1; subst h2
      simp [List.lookup]
    · have hne : k ≠ k' := by
        intro he
        exact (not_mem_keys_of_hasKey_false t k' hnd.1 (k, x) hm) (by simp [he])
      have hbe : (k == k') = false := by simp [hne]
      simp [List.lookup, hbe, ih hnd.2 hm]

theorem valEqB_refl (v : Val) : valEqB v v = true := by
  cases v <;> simp [valEqB]

theorem map_id_of_eq (l : List α) (f : α → α) (h : ∀ x ∈ l, f x = x) :
    l.map f = l := by
  induction l with
  | nil => rfl
  | cons a t ih => simp [h a (by simp), ih (fun x hx => h x (by simp [hx]))]

/-! ### C9: block_type property round-trip -/

/-- C9: for every Block `b` and string `s`, after setting `b.block_type = s`
the getter returns `s` (the unwrapped value of the `type` attribute); and a
Block whose attributes do not contain `type` reads `block_type` as `None`. -/
theorem c9_block_type_property :
    (∀ (b : Block) (s : String), (b.set_block_type s).block_type = some (.s s)) ∧
    (∀ b : Block, b.attributes.lookup "type" = none → b.block_type = none) := by
  constructor
  · intro b s
    unfold Block.set_block_type Block.block_type
    cases b with
    | mk a d v bs =>
      simp [lookup_insertOver_self, AttrCell.val]
  · intro b h
    unfold Block.block_type
    rw [h]

/-- Witness for C9 at a concrete block. -/
theorem c9_block_type_witness :
    (Block.empty.set_block_type "UCBlock").block_type = some (.s "UCBlock") ∧
    Block.empty.block_type = none :=
  ⟨c9_block_type_property.1 Block.empty "UCBlock",
   c9_block_type_property.2 Block.empty rfl⟩

/-! ### C7: constructor path-vs-explicit-maps precedence -/

/-- C7: constructing a Block from a document path together with explicit
attribute/dimension/variable/block maps loads exactly the document's
mappings: the result coincides with `from_netcdf_group` on the document and
with the construction that passes no explicit maps at all (the maps are
ignored, never merged); without a path the explicit maps are used as
given. -/
theorem c7_init_path_wins :
    ∀ (g : NCGroup) (a : List (String × AttrCell)) (d : List (String × DimCell))
      (v : List (String × Variable)) (bs : List (String × Block)),
      Block.init (some g) a d v bs = from_netcdf_group g ∧
      Block.init (some g) a d v bs = Block.init (some g) [] [] [] [] ∧
      Block.init none a d v bs = .ok (.mk a d v bs) :=
  fun _ _ _ _ _ => ⟨rfl, rfl, rfl⟩

@[simp] theorem Block.attributes_withAttributes (b : Block) (x) :
    (b.withAttributes x).attributes = x := by cases b; rfl

@[simp] theorem Block.dimensions_withDimensions (b : Block) (x) :
    (b.withDimensions x).dimensions = x := by cases b; rfl

@[simp] theorem Block.vars_withVars (b : Block) (x) :
    (b.withVars x).vars = x := by cases b; rfl

@[simp] theorem Block.blocks_withBlocks (b : Block) (x) :
    (b.withBlocks x).blocks = x := by cases b; rfl

/-- The Attribute that `add_attribute` stores for a given argument. -/
def mkAttr (n : String) : Sum Val Attribute → Attribute
  | .inl v => ⟨n, v⟩
  | .inr a0 => a0

theorem add_attribute_dup (b : Block) (n arg force)
    (h : (!force && hasKey b.attributes n) = true) :
    b.add_attribute n arg force = (.error .dup, b) := by
  simp [Block.add_attribute, h]

theorem add_attribute_ok (b : Block) (n arg force)
    (h : (!force && hasKey b.attributes n) = false) :
    b.add_attribute n arg force =
      (.ok (mkAttr n arg),
       b.withAttributes (insertOver b.attributes n (.obj (mkAttr n arg)))) := by
  cases arg <;> simp [Block.add_attribute, h, mkAttr]

/-! ### C3: add_attribute duplicate rejection and force overwrite -/

/-- C3: `add_attribute(n, v, force)` raises the duplicate-name error exactly
when `n` is already present and `force` is false, leaving the attributes
mapping unchanged; otherwise it stores (wrapping a bare value into an
Attribute, keeping an already-typed Attribute as-is), returns the stored
Attribute, which is then found under `n`; and a forced second insertion of
`n` always succeeds and overwrites the entry. -/
theorem c3_add_attribute :
    ∀ (b : Block) (n : String) (arg : Sum Val Attribute) (force : Bool),
      ((b.add_attribute n arg force).1 = .error .dup ↔
        hasKey b.attributes n = true ∧ force = false) ∧
      (hasKey b.attributes n = true ∧ force = false →
        (b.add_attribute n arg force).2 = b) ∧
      (¬(hasKey b.attributes n = true ∧ force = false) →
        ∃ a : Attribute,
          (b.add_attribute n arg force).1 = .ok a ∧
          a = (match arg with | .inl v => ⟨n, v⟩ | .inr a0 => a0) ∧
          (b.add_attribute n arg force).2 =
            b.withAttributes (insertOver b.attributes n (.obj a)) ∧
          (b.add_attribute n arg force).2.attributes.lookup n = some (.obj a)) ∧
      (∀ arg2 : Sum Val Attribute, ∃ a2 : Attribute,
        ((b.add_attribute n arg force).2.add_attribute n arg2 true).1 = .ok a2 ∧
        ((b.add_attribute n arg force).2.add_attribute n arg2 true).2.attributes.lookup n
          = some (.obj a2)) := by
  intro b n arg force
  have hforced : ∀ (b' : Block) (arg2 : Sum Val Attribute),
      ∃ a2 : Attribute,
        (b'.add_attribute n arg2 true).1 = .ok a2 ∧
        (b'.add_attribute n arg2 true).2.attributes.lookup n = some (.obj a2) := by
    intro b' arg2
    rw [add_attribute_ok b' n arg2 true (by simp)]
    exact ⟨mkAttr n arg2, rfl, by simp [lookup_insertOver_self]⟩
  by_cases h : hasKey b.attributes n = true ∧ force = false
  · have hc : (!force && hasKey b.attributes n) = true := by rw [h.1, h.2]; rfl
    rw [add_attribute_dup b n arg force hc]
    exact ⟨by simp [h], fun _ => rfl, fun hcontra => absurd h hcontra,
      fun arg2 => hforced b arg2⟩
  · have hc : (!force && hasKey b.attributes n) = false := by
      cases force with
      | true => rfl
      | false =>
        simp only [Bool.not_false, Bool.true_and]
        cases hk : hasKey b.attributes n with
        | false => rfl
        | true => exact absurd ⟨hk, rfl⟩ h
    rw [add_attribute_ok b n arg force hc]
    refine ⟨by simp [h], fun hcontra => absurd hcontra h, ?_, fun arg2 => hforced _ arg2⟩
    intro _
    refine ⟨mkAttr n arg, rfl, ?_, rfl, by simp [lookup_insertOver_self]⟩
    cases arg <;> rfl

/-- Witness for C3: inserting "x" then re-inserting without force fails and
leaves the mapping unchanged; re-inserting with force overwrites. -/
theorem c3_add_attribute_witness :
    (((Block.empty.add_attribute "x" (.inl (.i 1)) false).2.add_attribute "x"
        (.inl (.i 2)) false).1 = .error .dup) ∧
    (((Block.empty.add_attribute "x" (.inl (.i 1)) false).2.add_attribute "x"
        (.inl (.i 2)) false).2 = (Block.empty.add_attribute "x" (.inl (.i 1)) false).2) ∧
    (((Block.empty.add_attribute "x" (.inl (.i 1)) false).2.add_attribute "x"
        (.inl (.i 2)) true).2.attributes.lookup "x" = some (.obj ⟨"x", .i 2⟩)) := by
  have h1 := (c3_add_attribute ((Block.empty.add_attribute "x" (.inl (.i 1)) false).2)
    "x" (.inl (.i 2)) false).1.2 (by decide)
  have h2 := (c3_add_attribute ((Block.empty.add_attribute "x" (.inl (.i 1)) false).2)
    "x" (.inl (.i 2)) false).2.1 (by decide)
  obtain ⟨a, ha1, ha2, ha3, ha4⟩ :=
    (c3_add_attribute ((Block.empty.add_attribute "x" (.inl (.i 1)) false).2)
      "x" (.inl (.i 2)) true).2.2.1 (by decide)
  refine ⟨h1, h2, ?_⟩
  rw [ha2] at ha4
  exact ha4

/-! ### C5: overwrite guard on to_netcdf -/

/-- C5: serializing to a path where a file already exists without the
overwrite flag fails with the file-exists error and leaves the file system
(in particular the existing file) untouched — the check runs before the
destination is opened; with the overwrite flag (or a fresh path) the write
proceeds and on success the serialized group is stored at the path. -/
theorem c5_overwrite_guard :
    ∀ (fs : FS) (fp : String) (b : Block) (force : Bool),
      (hasKey fs fp = true ∧ force = false →
        (to_netcdf fs fp b force).1 = .error .fileExists ∧
        (to_netcdf fs fp b force).2 = fs) ∧
      (∀ g tr, to_netcdf_helper [] [] b = .ok (g, tr) →
        ¬(hasKey fs fp = true ∧ force = false) →
        to_netcdf fs fp b force = (.ok (), insertOver fs fp g) ∧
        (insertOver fs fp g).lookup fp = some g) := by
  intro fs fp b force
  constructor
  · intro h
    have hc : (!force && hasKey fs fp) = true := by rw [h.1, h.2]; rfl
    constructor <;> simp [to_netcdf, hc]
  · intro g tr hser h
    have hc : (!force && hasKey fs fp) = false := by
      cases force with
      | true => rfl
      | false =>
        simp only [Bool.not_false, Bool.true_and]
        cases hk : hasKey fs fp with
        | false => rfl
        | true => exact absurd ⟨hk, rfl⟩ h
    constructor
    · simp [to_netcdf, hc, hser]
    · exact lookup_insertOver_self fs fp g

/-- Witness for C5: a file system already holding `out.nc`. -/
theorem c5_overwrite_guard_witness :
    (to_netcdf [("out.nc", bcastG)] "out.nc" Block.empty false).1 = .error .fileExists ∧
    (to_netcdf [("out.nc", bcastG)] "out.nc" Block.empty false).2 = [("out.nc", bcastG)] :=
  (c5_overwrite_guard [("out.nc", bcastG)] "out.nc" Block.empty false).1 ⟨by decide, rfl⟩

/-! ### C4: mandatory file-kind attribute of a Network -/

/-- C4: a Network constructed without a path reads its file-kind attribute
as the problem-file enumerant 0 by default, and as whatever valid enumerant
was passed at construction; loading a Network from a document that parses as
a Block tree but lacks the root `SMS++_file_type` attribute raises the
missing-required-attribute error. -/
theorem c4_mandatory_file_kind :
    (file_type network_default = .ok 0) ∧
    (∀ ft : Int, 0 ≤ ft → ft < 4 → file_type (network_new ft) = .ok ft) ∧
    (∀ (g : NCGroup) (blk : Block), from_netcdf_group g = .ok blk →
      g.attrs.lookup "SMS++_file_type" = none →
      sms_from_netcdf g = .error .missingAttr) := by
  refine ⟨rfl, ?_, ?_⟩
  · intro ft h1 h2
    simp only [file_type, network_new, Block.attributes_withAttributes,
      Block.empty, Block.attributes_mk]
    rw [lookup_insertOver_self]
    simp [h1, h2]
  · intro g blk hload hmiss
    cases g with
    | mk a d v gs =>
      simp only [sms_from_netcdf, hload, NCGroup.attrs] at hmiss ⊢
      rw [hmiss]
      rfl

/-- Witness for C4 at a concrete document without `SMS++_file_type`. -/
theorem c4_mandatory_file_kind_witness :
    file_type (network_new 1) = .ok 1 ∧
    sms_from_netcdf (NCGroup.mk [("a", .s "v")] [] [] []) = .error .missingAttr := by
  refine ⟨c4_mandatory_file_kind.2.1 1 (by decide) (by decide), ?_⟩
  exact c4_mandatory_file_kind.2.2 (NCGroup.mk [("a", .s "v")] [] [] [])
    (Block.mk [("a", .obj ⟨"a", .s "v"⟩)] [] [] []) rfl rfl

/-! ### Characterization lemmas for the remaining add operations -/

theorem guard_of_not (x force : Bool) (h : ¬(x = true ∧ force = false)) :
    (!force && x) = false := by
  cases force with
  | true => rfl
  | false =>
    simp only [Bool.not_false, Bool.true_and]
    cases hx : x with
    | false => rfl
    | true => exact absurd ⟨hx, rfl⟩ h

/-- The Dimension that `add_dimension` stores for a given argument. -/
def mkDim (n : String) : Sum Nat Dimension → Dimension
  | .inl v => ⟨n, v⟩
  | .inr d0 => d0

theorem add_dimension_dup (b : Block) (n arg force)
    (h : (!force && hasKey b.dimensions n) = true) :
    b.add_dimension n arg force = (.error .dup, b) := by
  simp [Block.add_dimension, h]

theorem add_dimension_ok (b : Block) (n arg force)
    (h : (!force && hasKey b.dimensions n) = false) :
    b.add_dimension n arg force =
      (.ok (mkDim n arg),
       b.withDimensions (insertOver b.dimensions n (.obj (mkDim n arg)))) := by
  cases arg <;> simp [Block.add_dimension, h, mkDim]

/-- The Variable that `add_variable` stores for a given argument. -/
def mkVar (n : String) : VarArg → Variable
  | .obj v0 => v0
  | .fields t d dat => ⟨n, t, d, dat⟩

theorem add_variable_dup (b : Block) (n arg force)
    (h : (!force && hasKey b.vars n) = true) :
    b.add_variable n arg force = (.error .dup, b) := by
  simp [Block.add_variable, h]

theorem add_variable_ok (b : Block) (n arg force)
    (h : (!force && hasKey b.vars n) = false) :
    b.add_variable n arg force =
      (.ok (mkVar n arg), b.withVars (insertOver b.vars n (mkVar n arg))) := by
  cases arg <;> simp [Block.add_variable, h, mkVar]

theorem add_block_obj_dup (b : Block) (n sub force)
    (h : (!force && hasKey b.blocks n) = true) :
    b.add_block_obj n sub force = (.error .dup, b) := by
  simp [Block.add_block_obj, h]

theorem add_block_obj_ok (b : Block) (n sub force)
    (h : (!force && hasKey b.blocks n) = false) :
    b.add_block_obj n sub force =
      (.ok (b.withBlocks (insertOver b.blocks n sub)),
       b.withBlocks (insertOver b.blocks n sub)) := by
  simp [Block.add_block_obj, h]

/-! ### C10: what add_block and the generic add return -/

/-- C10: `add_block` returns the parent block itself (its post-mutation
state), not the stored sub-block, which is reachable only as
`blocks[name]`; accordingly the generic `add` yields the parent for a
Block-role component and the created entity for Attribute, Dimension and
Variable roles. -/
theorem c10_add_returns :
    ∀ (comp : CompDB) (db : SchemaDB) (b : Block) (cname n : String) (force : Bool),
      (∀ sub : Block, ¬(hasKey b.blocks n = true ∧ force = false) →
        (b.add_block comp db n (.posBlock sub) force).1 =
          .ok (b.withBlocks (insertOver b.blocks n sub)) ∧
        (b.add_block comp db n (.posBlock sub) force).2 =
          b.withBlocks (insertOver b.blocks n sub) ∧
        (b.add_block comp db n (.posBlock sub) force).2.blocks.lookup n = some sub) ∧
      (∀ sub : Block, comp.lookup cname = some "Block" →
        ¬(hasKey b.blocks n = true ∧ force = false) →
        (b.add comp db cname n (.pos (.blk sub)) force).1 =
          .ok (.blk (b.withBlocks (insertOver b.blocks n sub)))) ∧
      (∀ v : Val, comp.lookup cname = some "Attribute" →
        ¬(hasKey b.attributes n = true ∧ force = false) →
        (b.add comp db cname n (.pos (.val v)) force).1 = .ok (.attr ⟨n, v⟩)) ∧
      (∀ d : Dimension, comp.lookup cname = some "Dimension" →
        ¬(hasKey b.dimensions n = true ∧ force = false) →
        (b.add comp db cname n (.pos (.dim d)) force).1 = .ok (.dim d)) ∧
      (∀ vv : Variable, comp.lookup cname = some "Variable" →
        ¬(hasKey b.vars n = true ∧ force = false) →
        (b.add comp db cname n (.pos (.var vv)) force).1 = .ok (.var vv)) := by
  intro comp db b cname n force
  refine ⟨?_, ?_, ?_, ?_, ?_⟩
  · intro sub h
    have hc := guard_of_not (hasKey b.blocks n) force h
    refine ⟨by simp [Block.add_block, hc], by simp [Block.add_block, hc], ?_⟩
    simp [Block.add_block, hc, lookup_insertOver_self]
  · intro sub hl h
    have hc := guard_of_not (hasKey b.blocks n) force h
    simp [Block.add, hl, Block.add_block, hc, Except.map]
  · intro v hl h
    have hc := guard_of_not (hasKey b.attributes n) force h
    simp [Block.add, hl, Block.addPos,
      add_attribute_ok b n (.inl v) force hc, mkAttr, Except.map]
  · intro d hl h
    have hc := guard_of_not (hasKey b.dimensions n) force h
    simp [Block.add, hl, Block.addPos,
      add_dimension_ok b n (.inr d) force hc, mkDim, Except.map]
  · intro vv hl h
    have hc := guard_of_not (hasKey b.vars n) force h
    simp [Block.add, hl, Block.addPos,
      add_variable_ok b n (.obj vv) force hc, mkVar, Except.map]

/-- Witness for C10 at a concrete components table and block. -/
theorem c10_add_returns_witness :
    (Block.empty.add [("UCBlock", "Block")] [] "UCBlock" "Block_0"
        (.pos (.blk bcastBlock)) false).1 =
      .ok (.blk (Block.empty.withBlocks
        (insertOver Block.empty.blocks "Block_0" bcastBlock))) ∧
    (Block.empty.add [("Attribute", "Attribute")] [] "Attribute" "id"
        (.pos (.val (.s "0"))) false).1 = .ok (.attr ⟨"id", .s "0"⟩) :=
  ⟨(c10_add_returns [("UCBlock", "Block")] [] Block.empty "UCBlock" "Block_0"
      false).2.1 bcastBlock rfl (by decide),
   (c10_add_returns [("Attribute", "Attribute")] [] Block.empty "Attribute" "id"
      false).2.2.1 (.s "0") rfl (by decide)⟩

/-! ### C2: schema lookup with exact and name-leading matching -/

theorem find_attr_of_mem_nodup (tbl : SchemaTable) (r0 : SchemaRow)
    (hnd : (tbl.map SchemaRow.attr).Nodup) (hm : r0 ∈ tbl) :
    tbl.find? (fun r => r.attr == r0.attr) = some r0 := by
  induction tbl with
  | nil => cases hm
  | cons h t ih =>
    rw [List.map_cons, List.nodup_cons] at hnd
    rw [List.mem_cons] at hm
    rcases hm with hm | hm
    · subst hm
      simp [List.find?]
    · have hne : (h.attr == r0.attr) = false := by
        simp only [beq_eq_false_iff_ne, ne_eq]
        intro he
        exact hnd.1 (he ▸ List.mem_map_of_mem SchemaRow.attr hm)
      simp only [List.find?, hne]
      exact ih hnd.2 hm

/-- C2: for a field name `f` resolved against block type `T`'s schema table:
an exact match with a non-Block-role row returns that row; otherwise, among
the Block-role rows whose declared name leads `f`, exactly one match returns
that row, zero matches is the unknown-attribute error, and two or more
matches is the ambiguous-attribute error. -/
theorem c2_prefix_disambiguation :
    ∀ (db : SchemaDB) (T f : String) (tbl : SchemaTable),
      db.lookup T = some tbl → (tbl.map SchemaRow.attr).Nodup →
      (∀ r0 ∈ tbl, r0.attr = f → r0.smspp_object ≠ "Block" →
        get_attr_field db T f = .ok r0) ∧
      ((∀ r0 ∈ tbl, r0.attr = f → r0.smspp_object = "Block") →
        (∀ r1, (tbl.filter (fun r => r.smspp_object == "Block")).filter
            (fun r => startsWithB f r.attr) = [r1] →
          get_attr_field db T f = .ok r1) ∧
        ((tbl.filter (fun r => r.smspp_object == "Block")).filter
            (fun r => startsWithB f r.attr) = [] →
          get_attr_field db T f = .error .notFound) ∧
        (∀ r1 r2 rest, (tbl.filter (fun r => r.smspp_object == "Block")).filter
            (fun r => startsWithB f r.attr) = r1 :: r2 :: rest →
          get_attr_field db T f = .error .ambiguous)) := by
  intro db T f tbl hdb hnd
  constructor
  · intro r0 hmem hattr hobj
    have hb : (r0.smspp_object != "Block") = true := by
      simp only [bne_iff_ne, ne_eq]; exact hobj
    have hany : (tbl.filter (fun r => r.smspp_object != "Block")).any
        (fun r => r.attr == f) = true := by
      rw [List.any_eq_true]
      exact ⟨r0, List.mem_filter.mpr ⟨hmem, hb⟩, by simp [hattr]⟩
    subst hattr
    simp only [get_attr_field, hdb, hany, if_true,
      find_attr_of_mem_nodup tbl r0 hnd hmem]
  · intro hall
    have hany : (tbl.filter (fun r => r.smspp_object != "Block")).any
        (fun r => r.attr == f) = false := by
      rw [List.any_eq_false]
      intro r hr
      rw [List.mem_filter] at hr
      simp only [beq_eq_false_iff_ne, ne_eq, Bool.not_eq_true]
      intro he
      have he2 : r.attr = f := by simpa using he
      have := hall r hr.1 he2
      rw [bne_iff_ne] at hr
      exact hr.2 this
    refine ⟨?_, ?_, ?_⟩
    · intro r1 hm
      have hr1f : r1 ∈ (tbl.filter (fun r => r.smspp_object == "Block")) := by
        have : r1 ∈ (tbl.filter (fun r => r.smspp_object == "Block")).filter
            (fun r => startsWithB f r.attr) := by rw [hm]; simp
        exact (List.mem_filter.mp this).1
      have hr1 : r1 ∈ tbl := (List.mem_filter.mp hr1f).1
      simp only [get_attr_field, hdb, hany, Bool.false_eq_true, if_false, hm,
        find_attr_of_mem_nodup tbl r1 hnd hr1]
    · intro hm
      simp only [get_attr_field, hdb, hany, Bool.false_eq_true, if_false, hm]
    · intro r1 r2 rest hm
      simp only [get_attr_field, hdb, hany, Bool.false_eq_true, if_false, hm]

/-- The concrete schema table used by the C2 witness: block-typed rows
`Foo` and `FooBar`, simple row `Simple`. -/
def c2tbl : SchemaTable :=
  [⟨"Foo", "Block"⟩, ⟨"FooBar", "Block"⟩, ⟨"Simple", "Variable"⟩]

/-- The concrete schema database used by the C2 witness. -/
def c2db : SchemaDB := [("T", c2tbl)]

/-- Witness for C2 on a concrete schema with block-typed rows `Foo` and
`FooBar` and a simple row `Simple`: exact simple match, unique leading
match, ambiguous match, and no match. -/
theorem c2_prefix_disambiguation_witness :
    get_attr_field c2db "T" "Simple" = .ok ⟨"Simple", "Variable"⟩ ∧
    get_attr_field c2db "T" "Foo_1" = .ok ⟨"Foo", "Block"⟩ ∧
    get_attr_field c2db "T" "FooBar_1" = .error .ambiguous ∧
    get_attr_field c2db "T" "Qux_1" = .error .notFound := by
  refine ⟨?_, ?_, ?_, ?_⟩
  · exact (c2_prefix_disambiguation c2db "T" "Simple" c2tbl rfl (by decide)).1
      ⟨"Simple", "Variable"⟩ (by decide) rfl (by decide)
  · exact ((c2_prefix_disambiguation c2db "T" "Foo_1" c2tbl rfl (by decide)).2
      (by decide)).1 ⟨"Foo", "Block"⟩ (by decide)
  · exact ((c2_prefix_disambiguation c2db "T" "FooBar_1" c2tbl rfl (by decide)).2
      (by decide)).2.2 ⟨"Foo", "Block"⟩ ⟨"FooBar", "Block"⟩ [] (by decide)
  · exact ((c2_prefix_disambiguation c2db "T" "Qux_1" c2tbl rfl (by decide)).2
      (by decide)).2.1 (by decide)

/-! ### C6: shape checking happens at serialize time, with numpy broadcast -/

theorem convFlat_int_f8 (xs : List Int) :
    convFlat .f8 (xs.map Val.i) = some (xs.map (fun n => Val.r (n : ℚ))) := by
  induction xs with
  | nil => rfl
  | cons h t ih => simp [convFlat, convVal, ih]

/-- A single-node block with one declared dimension of size `n` and one
float variable on that axis carrying the integer data `xs`. -/
def c6Node (dimName varName : String) (n : Nat) (xs : List Int) : Block :=
  .mk [] [(dimName, .obj ⟨dimName, n⟩)]
    [(varName, ⟨varName, .tag "float", [dimName], ⟨[xs.length], xs.map .i⟩⟩)] []

/-- C6 (amended): the axis-length check runs at serialize time — data of
length `k` on a fixed axis of size `n` with `k ≠ n` fails with the
shape-mismatch error unless numpy can broadcast it (`k = 1` stretches, and
a 0-sized axis is unlimited and takes the data's extent); matching data
serializes fine.  Variable construction itself performs no check (the
embedding's Variable carrier is total), so the enforcement point is
serialization. -/
theorem c6_shape_check :
    ∀ (dimName varName : String) (n : Nat) (xs : List Int),
      (xs.length ≠ n → xs.length ≠ 1 → n ≠ 0 →
        to_netcdf_helper [] [] (c6Node dimName varName n xs) =
          .error .shapeMismatch) ∧
      (xs.length = n →
        (to_netcdf_helper [] [] (c6Node dimName varName n xs)).isOk = true) := by
  intro dimName varName n xs
  have hdims : writeDims [] [] [(dimName, DimCell.obj ⟨dimName, n⟩)] =
      .ok ([(dimName, ⟨n, n == 0⟩)], [⟨[], .dimW, dimName⟩]) := by
    simp [writeDims, createDim, DimCell.val]
  have hresolve : resolveDims [(dimName, (⟨n, n == 0⟩ : NCDim))] [] [dimName] =
      some [⟨n, n == 0⟩] := by
    simp [resolveDims, lookupDim, List.lookup]
  obtain ⟨ys, hconv⟩ : ∃ ys : List Val,
      convTensor .f8 ⟨[xs.length], xs.map .i⟩ = some ⟨[xs.length], ys⟩ :=
    ⟨xs.map (fun m => Val.r (m : ℚ)), by simp [convTensor, convFlat_int_f8]⟩
  constructor
  · intro hk1 hk2 hn
    have hbe1 : (n == 0) = false := by simp [hn]
    have hbe2 : (n == xs.length) = false := by
      simp only [beq_eq_false_iff_ne, ne_eq]
      exact fun h => hk1 h.symm
    have hbe3 : (xs.length == n) = false := by simp [hk1]
    have hbe4 : (xs.length == 1) = false := by simp [hk2]
    have hset : setVar [⟨n, n == 0⟩] ⟨[xs.length], ys⟩ = none := by
      simp [setVar, matchShape, hbe1, hbe2, bcastShapeOK, hbe3, hbe4]
    simp [c6Node, to_netcdf_helper, hdims, writeVars, createVariable,
      VType.resolve, dtypeOf, hresolve, hconv, hset]
  · intro hk
    subst hk
    have hset : setVar [⟨xs.length, xs.length == 0⟩] ⟨[xs.length], ys⟩ =
        some ⟨[xs.length], ys⟩ := by
      simp [setVar, matchShape]
    simp [c6Node, to_netcdf_helper, hdims, writeVars, createVariable,
      VType.resolve, dtypeOf, hresolve, hconv, hset,
      to_netcdf_helper.writeGroups, Except.isOk, Except.toBool]

/-- Witness for C6 (amended): length 3 against a fixed axis of 4 fails at
serialize time; length 2 against axis 2 succeeds. -/
theorem c6_shape_check_witness :
    to_netcdf_helper [] [] (c6Node "T" "x" 4 [1, 2, 3]) = .error .shapeMismatch ∧
    (to_netcdf_helper [] [] (c6Node "T" "x" 2 [1, 2])).isOk = true :=
  ⟨(c6_shape_check "T" "x" 4 [1, 2, 3]).1 (by decide) (by decide) (by decide),
   (c6_shape_check "T" "x" 2 [1, 2]).2 rfl⟩

/-- Counterexample to C6 as stated: `bcastBlock`'s variable has data of rank
0 while declaring one axis (`T` of size 2), yet serialization succeeds — the
scalar is broadcast over the axis instead of raising. -/
theorem c6_counterexample :
    to_netcdf_helper [] [] bcastBlock = .ok (bcastG, bcastTr) ∧
    bcastBlock.vars = [("x", ⟨"x", .tag "float", ["T"],
      ⟨[], [.i 5]⟩⟩)] ∧
    ([] : List Nat).length ≠ (["T"] : List String).length :=
  ⟨rfl, rfl, by decide⟩

/-! ### Round-trip infrastructure: fold and loader lemmas -/

theorem hasKey_append (l m : List (String × α)) (k : String) :
    hasKey (l ++ m) k = (hasKey l k || hasKey m k) := by
  induction l with
  | nil => simp
  | cons p t ih =>
    obtain ⟨k', v'⟩ := p
    rw [List.cons_append, hasKey_cons, hasKey_cons, ih, Bool.or_assoc]

theorem foldl_insertOver_eq (f : String × β → α) (l : List (String × β))
    (acc : List (String × α))
    (hfresh : ∀ p ∈ l, hasKey acc p.1 = false) (hnd : nodupKeysB l = true) :
    l.foldl (fun acc2 p => insertOver acc2 p.1 (f p)) acc =
      acc ++ l.map (fun p => (p.1, f p)) := by
  induction l generalizing acc with
  | nil => simp
  | cons p t ih =>
    simp only [nodupKeysB, Bool.and_eq_true, Bool.not_eq_true'] at hnd
    rw [List.foldl_cons, insertOver_fresh acc p.1 (f p) (hfresh p (by simp))]
    rw [ih (acc ++ [(p.1, f p)]) ?_ hnd.2]
    · simp
    · intro q hq
      rw [hasKey_append, Bool.or_eq_false_iff]
      refine ⟨hfresh q (by simp [hq]), ?_⟩
      rw [hasKey_cons]
      simp only [Bool.or_eq_false_iff]
      refine ⟨?_, rfl⟩
      simp only [beq_eq_false_iff_ne, ne_eq]
      exact (not_mem_keys_of_hasKey_false t p.1 hnd.1 q hq)

theorem hasKey_map_val (l : List (String × β)) (f : String × β → α) (k : String) :
    hasKey (l.map (fun p => (p.1, f p))) k = hasKey l k := by
  induction l with
  | nil => simp
  | cons p t ih => rw [List.map_cons, hasKey_cons, hasKey_cons, ih]

theorem nodupKeysB_map_val (l : List (String × β)) (f : String × β → α) :
    nodupKeysB (l.map (fun p => (p.1, f p))) = nodupKeysB l := by
  induction l with
  | nil => rfl
  | cons p t ih => rw [List.map_cons, nodupKeysB, nodupKeysB, ih, hasKey_map_val]

@[simp] theorem Block.withAttributes_self (b : Block) :
    b.withAttributes b.attributes = b := by cases b; rfl

@[simp] theorem Block.withDimensions_self (b : Block) :
    b.withDimensions b.dimensions = b := by cases b; rfl

@[simp] theorem Block.withVars_self (b : Block) : b.withVars b.vars = b := by
  cases b; rfl

@[simp] theorem Block.withBlocks_self (b : Block) : b.withBlocks b.blocks = b := by
  cases b; rfl

theorem loadAttrs_ok (l : List (String × Val)) (b : Block) :
    loadAttrs b l = .ok (b.withAttributes
      (l.foldl (fun acc p => insertOver acc p.1 (.obj ⟨p.1, p.2⟩)) b.attributes)) := by
  induction l generalizing b with
  | nil => simp [loadAttrs]
  | cons p t ih =>
    rw [loadAttrs, add_attribute_ok b p.1 (.inl p.2) true (by simp)]
    dsimp only
    rw [ih]
    cases b
    simp [mkAttr]

theorem loadDims_ok (l : List (String × NCDim)) (b : Block)
    (hnd : nodupKeysB l = true)
    (hfresh : ∀ p ∈ l, hasKey b.dimensions p.1 = false) :
    loadDims b l = .ok (b.withDimensions
      (b.dimensions ++ l.map (fun p => (p.1, DimCell.obj ⟨p.1, p.2.size⟩)))) := by
  induction l generalizing b with
  | nil => simp [loadDims]
  | cons p t ih =>
    simp only [nodupKeysB, Bool.and_eq_true, Bool.not_eq_true'] at hnd
    have hg : (!false && hasKey b.dimensions p.1) = false := by
      simp [hfresh p (by simp)]
    rw [loadDims, add_dimension_ok b p.1 (.inl p.2.size) false hg]
    rw [insertOver_fresh b.dimensions p.1 _ (hfresh p (by simp))]
    dsimp only
    rw [ih _ hnd.2 ?_]
    · cases b
      simp [mkDim]
    · intro q hq
      simp only [Block.dimensions_withDimensions, hasKey_append, hasKey_cons,
        Bool.or_eq_false_iff]
      refine ⟨hfresh q (by simp [hq]), ?_, rfl⟩
      simp only [beq_eq_false_iff_ne, ne_eq]
      exact not_mem_keys_of_hasKey_false t p.1 hnd.1 q hq

/-- Duplicate-free names in a list of container variables. -/
def nodupNamesB : List NCVar → Bool
  | [] => true
  | w :: t => !(t.any (fun u => u.name == w.name)) && nodupNamesB t

theorem loadVars_ok (l : List NCVar) (b : Block)
    (hnd : nodupNamesB l = true)
    (hfresh : ∀ w ∈ l, hasKey b.vars w.name = false) :
    loadVars b l = .ok (b.withVars (b.vars ++ l.map (fun w =>
      (w.name, (⟨w.name, .native w.ty, w.dims, w.data⟩ : Variable))))) := by
  induction l generalizing b with
  | nil => simp [loadVars]
  | cons w t ih =>
    simp only [nodupNamesB, Bool.and_eq_true, Bool.not_eq_true'] at hnd
    have hg : (!false && hasKey b.vars w.name) = false := by
      simp [hfresh w (by simp)]
    rw [loadVars, add_variable_ok b w.name (.fields (.native w.ty) w.dims w.data) false hg]
    rw [insertOver_fresh b.vars w.name _ (hfresh w (by simp))]
    dsimp only
    rw [ih _ hnd.2 ?_]
    · cases b
      simp [mkVar]
    · intro u hu
      simp only [Block.vars_withVars, hasKey_append, hasKey_cons,
        Bool.or_eq_false_iff]
      refine ⟨hfresh u (by simp [hu]), ?_, rfl⟩
      simp only [beq_eq_false_iff_ne, ne_eq]
      intro he
      have := (List.any_eq_false.mp hnd.1) u hu
      simp [he] at this

theorem createDim_ok (cur : List (String × NCDim)) (k : String) (n : Nat) (out)
    (h : createDim cur k n = .ok out) :
    hasKey cur k = false ∧ out = cur ++ [(k, ⟨n, n == 0⟩)] := by
  by_cases hk : hasKey cur k = true
  · simp [createDim, hk] at h
  · simp only [Bool.not_eq_true] at hk
    simp only [createDim, hk, Bool.false_eq_true, if_false, Except.ok.injEq] at h
    exact ⟨hk, h.symm⟩

theorem writeDims_ok (dims : List (String × DimCell)) (path : List String)
    (cur fin : List (String × NCDim)) (evs : List Ev)
    (h : writeDims path cur dims = .ok (fin, evs)) :
    fin = cur ++ declDims dims ∧
    evs = dims.map (fun p => (⟨path, .dimW, p.1⟩ : Ev)) := by
  induction dims generalizing cur fin evs with
  | nil =>
    simp only [writeDims, Except.ok.injEq, Prod.mk.injEq] at h
    simp [declDims, ← h.1, ← h.2]
  | cons p t ih =>
    rw [writeDims] at h
    cases hc : createDim cur p.1 p.2.val with
    | error e => rw [hc] at h; simp at h
    | ok cur' =>
      rw [hc] at h
      simp only [bind_ok_ex] at h
      cases hrec : writeDims path cur' t with
      | error e => rw [hrec] at h; simp at h
      | ok out =>
        rw [hrec] at h
        obtain ⟨fin', evs'⟩ := out
        simp only [bind_ok_ex, Except.ok.injEq, Prod.mk.injEq] at h
        obtain ⟨hcf, hout⟩ := createDim_ok cur p.1 p.2.val cur' hc
        obtain ⟨h1, h2⟩ := ih cur' fin' evs' hrec
        subst hout
        constructor
        · rw [← h.1, h1]
          simp [declDims]
        · rw [← h.2, h2]
          rfl

theorem writeVars_evs (vars : List (String × Variable)) (path : List String)
    (own env : List (String × NCDim)) (acc ws : List NCVar)
    (ownF : List (String × NCDim)) (evs : List Ev)
    (h : writeVars path own env acc vars = .ok (ws, ownF, evs)) :
    evs = vars.map (fun p => (⟨path, .varW, p.1⟩ : Ev)) := by
  induction vars generalizing own acc ws ownF evs with
  | nil =>
    simp only [writeVars, Except.ok.injEq, Prod.mk.injEq] at h
    simp [← h.2.2]
  | cons p t ih =>
    rw [writeVars] at h
    by_cases hdup : (acc.any (fun w => w.name == p.1)) = true
    · simp [hdup] at h
    · simp only [Bool.not_eq_true] at hdup
      simp only [hdup, Bool.false_eq_true, if_false] at h
      cases hc : createVariable own env p.1 p.2 with
      | error e => rw [hc] at h; simp at h
      | ok out =>
        rw [hc] at h
        obtain ⟨w, own'⟩ := out
        simp only [bind_ok_ex] at h
        cases hrec : writeVars path own' env (acc ++ [w]) t with
        | error e => rw [hrec] at h; simp at h
        | ok out2 =>
          rw [hrec] at h
          obtain ⟨ws', ownF', evs'⟩ := out2
          simp only [bind_ok_ex, Except.ok.injEq, Prod.mk.injEq] at h
          rw [← h.2.2, ih own' (acc ++ [w]) ws' ownF' evs' hrec]
          rfl

/-! ### Round-trip infrastructure: conversion and assignment lemmas -/

theorem convVal_valEqB (ty : NCType) (v w : Val) (h : convVal ty v = some w) :
    valEqB v w = true := by
  cases ty <;> cases v <;>
    simp only [convVal, Option.some.injEq, reduceCtorEq] at h
  all_goals try (subst h; simp [valEqB])
  all_goals
    split at h
    · injection h with hw
      subst hw
      simp only [valEqB, beq_iff_eq]
      all_goals
        rename_i hcond
        exact (Rat.coe_int_num_of_den_eq_one hcond.1).symm
    · exact absurd h (by simp)

theorem convFlat_rel (ty : NCType) (l l' : List Val) (h : convFlat ty l = some l') :
    l.length = l'.length ∧ (l.zip l').all (fun p => valEqB p.1 p.2) = true := by
  induction l generalizing l' with
  | nil =>
    simp only [convFlat, Option.some.injEq] at h
    subst h; simp
  | cons v t ih =>
    rw [convFlat] at h
    cases hv : convVal ty v with
    | none => rw [hv] at h; simp at h
    | some w =>
      rw [hv] at h
      cases ht : convFlat ty t with
      | none => rw [ht] at h; simp at h
      | some ws =>
        rw [ht] at h
        simp only [Option.some.injEq] at h
        subst h
        obtain ⟨h1, h2⟩ := ih ws ht
        refine ⟨by simp [h1], ?_⟩
        simp only [List.zip_cons_cons, List.all_cons, Bool.and_eq_true]
        exact ⟨convVal_valEqB ty v w hv, h2⟩

theorem tensorEqB_of_conv (ty : NCType) (t u : Tensor) (h : convTensor ty t = some u) :
    u.shape = t.shape ∧ tensorEqB t u = true := by
  rw [convTensor] at h
  cases hf : convFlat ty t.flat with
  | none => rw [hf] at h; simp at h
  | some l' =>
    rw [hf] at h
    simp only [Option.map, Option.some.injEq] at h
    subst h
    obtain ⟨h1, h2⟩ := convFlat_rel ty t.flat l' hf
    exact ⟨rfl, by simp [tensorEqB, h1, h2]⟩

theorem matchShape_map (S : List NCDim) : matchShape S (S.map (·.size)) = true := by
  induction S with
  | nil => rfl
  | cons d rest ih =>
    rw [matchShape] at ih ⊢
    simp only [List.length_map, beq_self_eq_true, Bool.true_and] at ih ⊢
    simp [ih]

theorem setVar_exact (S : List NCDim) (t : Tensor)
    (h : t.shape = S.map (·.size)) : setVar S t = some t := by
  simp [setVar, h, matchShape_map]

theorem growDims_noop (own env : List (String × NCDim)) (names : List String)
    (S : List NCDim) (sh : List Nat)
    (hnd : nodupKeysB own = true)
    (hres : resolveDims own env names = some S)
    (hsh : sh = S.map (·.size)) :
    growDims own names sh = own := by
  induction names generalizing S sh with
  | nil =>
    simp only [resolveDims, Option.some.injEq] at hres
    subst hres
    subst hsh
    rfl
  | cons nm rest ih =>
    rw [resolveDims] at hres
    cases hl : lookupDim own env nm with
    | none => rw [hl] at hres; simp at hres
    | some d =>
      rw [hl] at hres
      cases hr : resolveDims own env rest with
      | none => rw [hr] at hres; simp at hres
      | some ds =>
        rw [hr] at hres
        simp only [Option.some.injEq] at hres
        subst hres
        subst hsh
        have hstep : own.map (fun q =>
            if q.1 == nm && q.2.unlim then (q.1, (⟨max q.2.size d.size, true⟩ : NCDim))
            else q) = own := by
          apply map_id_of_eq
          intro q hq
          obtain ⟨qk, qd⟩ := q
          by_cases hqn : (qk == nm) = true
          · have hqe : qk = nm := by simpa using hqn
            have hlq : own.lookup nm = some qd := by
              apply lookup_of_mem_nodup own nm qd hnd
              rw [← hqe]
              exact hq
            obtain ⟨qs, qu⟩ := qd
            have hd : d = ⟨qs, qu⟩ := by
              rw [lookupDim, hlq] at hl
              simpa using hl.symm
            subst hd
            cases qu with
            | true => simp [hqn]
            | false => simp [hqn]
          · simp only [Bool.not_eq_true] at hqn
            simp [hqn]
        rw [growDims, List.map_cons, List.zip_cons_cons, List.foldl_cons]
        dsimp only
        rw [hstep]
        exact ih ds (ds.map (·.size)) hr rfl

theorem createVariable_exact (own env : List (String × NCDim)) (k : String)
    (v : Variable) (w : NCVar) (own₂ : List (String × NCDim))
    (hnd : nodupKeysB own = true)
    (h : createVariable own env k v = .ok (w, own₂))
    (hex : (match resolveDims own env v.dimensions with
            | some S => S.map (·.size) == v.data.shape
            | none => false) = true) :
    own₂ = own ∧ w.name = k ∧ w.dims = v.dimensions ∧
    v.var_type.resolve = some w.ty ∧ tensorEqB v.data w.data = true := by
  rw [createVariable] at h
  cases hτ : v.var_type.resolve with
  | none => rw [hτ] at h; simp at h
  | some τ =>
    rw [hτ] at h
    dsimp only at h
    cases hres : resolveDims own env v.dimensions with
    | none => rw [hres] at hex; simp at hex
    | some S =>
      rw [hres] at h hex
      dsimp only at h
      have hsz : S.map (·.size) = v.data.shape := by simpa using hex
      cases hcv : convTensor τ v.data with
      | none => rw [hcv] at h; simp at h
      | some conv =>
        rw [hcv] at h
        dsimp only at h
        obtain ⟨hshape, heq⟩ := tensorEqB_of_conv τ v.data conv hcv
        have hcs : conv.shape = S.map (·.size) := by rw [hshape, hsz]
        rw [setVar_exact S conv hcs] at h
        dsimp only at h
        simp only [Except.ok.injEq, Prod.mk.injEq] at h
        obtain ⟨hw, hown⟩ := h
        subst hw
        refine ⟨?_, rfl, rfl, by simp [hτ], heq⟩
        rw [← hown]
        exact growDims_noop own env v.dimensions S conv.shape hnd hres hcs

/-- The relation between a Block variable entry and the container variable
its serialization produces. -/
def VarWr (p : String × Variable) (w : NCVar) : Prop :=
  w.name = p.1 ∧ w.dims = p.2.dimensions ∧
  p.2.var_type.resolve = some w.ty ∧ tensorEqB p.2.data w.data = true

theorem writeVars_exact (vars : List (String × Variable)) (path : List String)
    (own env : List (String × NCDim)) (acc ws : List NCVar)
    (ownF : List (String × NCDim)) (evs : List Ev)
    (hnd : nodupKeysB own = true)
    (h : writeVars path own env acc vars = .ok (ws, ownF, evs))
    (hex : vars.all (fun p =>
      match resolveDims own env p.2.dimensions with
      | some S => S.map (·.size) == p.2.data.shape
      | none => false) = true) :
    ownF = own ∧ ∃ ws', ws = acc ++ ws' ∧ List.Forall₂ VarWr vars ws' := by
  induction vars generalizing acc ws ownF evs with
  | nil =>
    simp only [writeVars, Except.ok.injEq, Prod.mk.injEq] at h
    exact ⟨h.2.1.symm, [], by simp [← h.1], List.Forall₂.nil⟩
  | cons p t ih =>
    rw [List.all_cons, Bool.and_eq_true] at hex
    rw [writeVars] at h
    by_cases hdup : (acc.any (fun w => w.name == p.1)) = true
    · simp [hdup] at h
    · simp only [Bool.not_eq_true] at hdup
      simp only [hdup, Bool.false_eq_true, if_false] at h
      cases hc : createVariable own env p.1 p.2 with
      | error e => rw [hc] at h; simp at h
      | ok out =>
        rw [hc] at h
        obtain ⟨w, own'⟩ := out
        obtain ⟨hown', hname, hdims, hty, hdata⟩ :=
          createVariable_exact own env p.1 p.2 w own' hnd hc hex.1
        rw [hown'] at h
        simp only [bind_ok_ex] at h
        cases hrec : writeVars path own env (acc ++ [w]) t with
        | error e => rw [hrec] at h; simp at h
        | ok out2 =>
          rw [hrec] at h
          obtain ⟨ws', ownF', evs'⟩ := out2
          simp only [bind_ok_ex, Except.ok.injEq, Prod.mk.injEq] at h
          obtain ⟨hF, ⟨ws'', hws, hfa⟩⟩ := ih (acc ++ [w]) ws' ownF' evs' hrec hex.2
          refine ⟨by rw [← h.2.1, hF], w :: ws'', ?_, ?_⟩
          · rw [← h.1, hws, List.append_assoc]
            rfl
          · exact List.Forall₂.cons ⟨hname, hdims, hty, hdata⟩ hfa

/-- Structural strong induction over the nested Block tree. -/
theorem Block.strongInd (P : Block → Prop)
    (h : ∀ a d v bs, (∀ p ∈ bs, P p.2) → P (.mk a d v bs)) : ∀ b, P b
  | .mk a d v bs => h a d v bs (fun p hp =>
      have _hm : p ∈ bs := hp
      Block.strongInd P h p.2)
termination_by b => sizeOf b
decreasing_by
  have h1 : sizeOf p < sizeOf bs := List.sizeOf_lt_of_mem hp
  cases p with
  | mk n c => simp at h1 ⊢; omega

theorem all_zip_of_forall₂ (R : α → β → Prop) (p : α × β → Bool)
    (l : List α) (l' : List β)
    (hfa : List.Forall₂ R l l') (h : ∀ a b, R a b → p (a, b) = true) :
    (l.zip l').all p = true := by
  induction hfa with
  | nil => rfl
  | cons hr _ ih =>
    rw [List.zip_cons_cons, List.all_cons, Bool.and_eq_true]
    exact ⟨h _ _ hr, ih⟩

theorem zip_map_all (l : List (String × β)) (f : String × β → α)
    (p : (String × β) × (String × α) → Bool)
    (h : ∀ x ∈ l, p (x, (x.1, f x)) = true) :
    (l.zip (l.map (fun q => (q.1, f q)))).all p = true := by
  induction l with
  | nil => rfl
  | cons a t ih =>
    rw [List.map_cons, List.zip_cons_cons, List.all_cons, Bool.and_eq_true]
    exact ⟨h a (by simp), ih (fun x hx => h x (by simp [hx]))⟩

theorem nodupKeysB_append_fresh (acc : List (String × α)) (k : String) (v : α)
    (hacc : nodupKeysB acc = true) (hk : hasKey acc k = false) :
    nodupKeysB (acc ++ [(k, v)]) = true := by
  induction acc with
  | nil => simp [nodupKeysB, hasKey]
  | cons q u ih =>
    rw [List.cons_append, nodupKeysB, Bool.and_eq_true]
    rw [nodupKeysB, Bool.and_eq_true] at hacc
    rw [hasKey_cons, Bool.or_eq_false_iff] at hk
    have h1 : hasKey u q.1 = false := by simpa using hacc.1
    have h2 : (q.1 == k) = false := by
      rw [beq_eq_false_iff_ne] at hk ⊢
      exact fun he => hk.1 he.symm
    refine ⟨?_, ih hacc.2 hk.2⟩
    simp [hasKey_append, hasKey_cons, h1, h2]

/-- Full characterization of a successful `writeGroups` pass: one serialized
group and one trace segment per sub-block, names preserved in order and
duplicate-free. -/
theorem writeGroups_full (bs : List (String × Block))
    (env' : List (String × NCDim)) (path : List String)
    (acc : List (String × NCGroup)) (gs : List (String × NCGroup)) (evs : List Ev)
    (hacc : nodupKeysB acc = true)
    (h : to_netcdf_helper.writeGroups env' path acc bs = .ok (gs, evs)) :
    ∃ out : List (String × NCGroup × List Ev),
      gs = acc ++ out.map (fun o => (o.1, o.2.1)) ∧
      evs = (out.map (fun o => (⟨path, .grpW, o.1⟩ : Ev) :: o.2.2)).flatten ∧
      nodupKeysB (acc ++ out.map (fun o => (o.1, o.2.1))) = true ∧
      List.Forall₂ (fun (p : String × Block) (o : String × NCGroup × List Ev) =>
        o.1 = p.1 ∧ to_netcdf_helper env' (path ++ [p.1]) p.2 = .ok (o.2.1, o.2.2))
        bs out := by
  induction bs generalizing acc gs evs with
  | nil =>
    simp only [to_netcdf_helper.writeGroups, Except.ok.injEq, Prod.mk.injEq] at h
    refine ⟨[], by simp [← h.1], by simp [← h.2], by simpa using hacc, List.Forall₂.nil⟩
  | cons p t ih =>
    rw [to_netcdf_helper.writeGroups] at h
    by_cases hdup : hasKey acc p.1 = true
    · simp [hdup] at h
    · simp only [Bool.not_eq_true] at hdup
      simp only [hdup, Bool.false_eq_true, if_false] at h
      cases hc : to_netcdf_helper env' (path ++ [p.1]) p.2 with
      | error e => rw [hc] at h; simp at h
      | ok out0 =>
        rw [hc] at h
        obtain ⟨g0, tr0⟩ := out0
        simp only [bind_ok_ex] at h
        cases hrec : to_netcdf_helper.writeGroups env' path (acc ++ [(p.1, g0)]) t with
        | error e => rw [hrec] at h; simp at h
        | ok out2 =>
          rw [hrec] at h
          obtain ⟨gs', evs'⟩ := out2
          simp only [bind_ok_ex, Except.ok.injEq, Prod.mk.injEq] at h
          have hacc' : nodupKeysB (acc ++ [(p.1, g0)]) = true :=
            nodupKeysB_append_fresh acc p.1 g0 hacc hdup
          obtain ⟨out, h1, h2, h3, h4⟩ := ih (acc ++ [(p.1, g0)]) gs' evs' hacc' hrec
          refine ⟨(p.1, g0, tr0) :: out, ?_, ?_, ?_, ?_⟩
          · rw [← h.1, h1]
            simp
          · rw [← h.2, h2]
            simp
          · simpa using h3
          · exact List.Forall₂.cons ⟨rfl, hc⟩ h4

/-- A successful `goGroups` pass over deserialize-able groups appends one
sub-block per group, names preserved. -/
theorem goGroups_ok (bs : List (String × Block)) (gs : List (String × NCGroup))
    (b : Block)
    (hfa : List.Forall₂ (fun (p : String × Block) (q : String × NCGroup) =>
      q.1 = p.1 ∧ ∃ b', from_netcdf_group q.2 = .ok b' ∧
        blockEquivB p.2 b' = true) bs gs)
    (hnd : nodupKeysB bs = true)
    (hfresh : ∀ p ∈ bs, hasKey b.blocks p.1 = false) :
    ∃ subs : List (String × Block),
      from_netcdf_group.goGroups b gs = .ok (b.withBlocks (b.blocks ++ subs)) ∧
      List.Forall₂ (fun (p : String × Block) (q : String × Block) =>
        q.1 = p.1 ∧ blockEquivB p.2 q.2 = true) bs subs := by
  induction bs generalizing gs b with
  | nil =>
    cases hfa
    exact ⟨[], by simp [from_netcdf_group.goGroups], List.Forall₂.nil⟩
  | cons p t ih =>
    cases hfa with
    | cons hr hrest =>
      rename_i q gs'
      obtain ⟨hq1, b', hb', hequiv⟩ := hr
      simp only [nodupKeysB, Bool.and_eq_true, Bool.not_eq_true'] at hnd
      rw [from_netcdf_group.goGroups, hb']
      simp only [bind_ok_ex]
      have hg : (!false && hasKey b.blocks q.1) = false := by
        rw [hq1]
        simp [hfresh p (by simp)]
      rw [add_block_obj_ok b q.1 b' false hg]
      dsimp only
      rw [insertOver_fresh b.blocks q.1 b' (by rw [hq1]; exact hfresh p (by simp))]
      have hfresh2 : ∀ p' ∈ t,
          hasKey (b.withBlocks (b.blocks ++ [(q.1, b')])).blocks p'.1 = false := by
        intro p' hp'
        simp only [Block.blocks_withBlocks, hasKey_append, hasKey_cons,
          Bool.or_eq_false_iff]
        refine ⟨hfresh p' (by simp [hp']), ?_, rfl⟩
        rw [beq_eq_false_iff_ne, hq1]
        exact not_mem_keys_of_hasKey_false t p.1 hnd.1 p' hp'
      obtain ⟨subs, hgo, hfa2⟩ :=
        ih gs' (b.withBlocks (b.blocks ++ [(q.1, b')])) hrest hnd.2 hfresh2
      refine ⟨(q.1, b') :: subs, ?_, List.Forall₂.cons ⟨hq1, hequiv⟩ hfa2⟩
      rw [hgo]
      cases b
      simp

theorem wellFormedB_go_mem (bs : List (String × Block))
    (h : wellFormedB.go bs = true) : ∀ p ∈ bs, wellFormedB p.2 = true := by
  induction bs with
  | nil => intro p hp; cases hp
  | cons q t ih =>
    rw [wellFormedB.go, Bool.and_eq_true] at h
    intro p hp
    rw [List.mem_cons] at hp
    rcases hp with hp | hp
    · rw [hp]; exact h.1
    · exact ih h.2 p hp

theorem exactShapesB_go_mem (env' : List (String × NCDim))
    (bs : List (String × Block)) (h : exactShapesB.go env' bs = true) :
    ∀ p ∈ bs, exactShapesB env' p.2 = true := by
  induction bs with
  | nil => intro p hp; cases hp
  | cons q t ih =>
    rw [exactShapesB.go, Bool.and_eq_true] at h
    intro p hp
    rw [List.mem_cons] at hp
    rcases hp with hp | hp
    · rw [hp]; exact h.1
    · exact ih h.2 p hp

theorem forall₂_imp_mem {R R' : α → β → Prop} (l : List α) (l' : List β)
    (h : List.Forall₂ R l l') (himp : ∀ a ∈ l, ∀ b, R a b → R' a b) :
    List.Forall₂ R' l l' := by
  induction l generalizing l' with
  | nil => cases h; exact List.Forall₂.nil
  | cons x t ih =>
    cases h with
    | cons hr hrest =>
      exact List.Forall₂.cons (himp x (by simp) _ hr)
        (ih _ hrest (fun a ha b hb => himp a (by simp [ha]) b hb))

theorem forall₂_names_ne (t : List (String × Variable)) (ws : List NCVar)
    (hfa : List.Forall₂ VarWr t ws) (k : String)
    (hk : ∀ q ∈ t, q.1 ≠ k) : ∀ u ∈ ws, u.name ≠ k := by
  induction hfa with
  | nil => intro u hu; cases hu
  | @cons p w t' ws' hr _ ih =>
    intro u hu
    rw [List.mem_cons] at hu
    rcases hu with hu | hu
    · rw [hu, hr.1]
      exact hk p (by simp)
    · exact ih (fun q hq => hk q (by simp [hq])) u hu

theorem nodupNamesB_of_forall₂ (v : List (String × Variable)) (ws : List NCVar)
    (hfa : List.Forall₂ VarWr v ws) (hnd : nodupKeysB v = true) :
    nodupNamesB ws = true := by
  induction hfa with
  | nil => rfl
  | @cons p w t ws' hr hrest ih =>
    simp only [nodupKeysB, Bool.and_eq_true, Bool.not_eq_true'] at hnd
    rw [nodupNamesB, Bool.and_eq_true]
    refine ⟨?_, ih hnd.2⟩
    rw [Bool.not_eq_true', List.any_eq_false]
    intro u hu
    have hne : u.name ≠ w.name := by
      rw [hr.1]
      exact forall₂_names_ne t ws' hrest p.1
        (not_mem_keys_of_hasKey_false t p.1 hnd.1) u hu
    simp [hne]

theorem equiv_go_of_forall₂ (bs subs : List (String × Block))
    (hfa : List.Forall₂ (fun (p : String × Block) (q : String × Block) =>
      q.1 = p.1 ∧ blockEquivB p.2 q.2 = true) bs subs) :
    blockEquivB.go bs subs = true := by
  induction hfa with
  | nil => rfl
  | @cons p q t subs' hr _ ih =>
    obtain ⟨pk, pb⟩ := p
    obtain ⟨qk, qb⟩ := q
    have h1 : qk = pk := hr.1
    rw [blockEquivB.go, Bool.and_eq_true, Bool.and_eq_true]
    exact ⟨⟨by simp [h1], hr.2⟩, ih⟩

theorem roundtrip_aux :
    ∀ b : Block, ∀ (env : List (String × NCDim)) (path : List String)
      (g : NCGroup) (tr : List Ev),
      wellFormedB b = true → exactShapesB env b = true →
      to_netcdf_helper env path b = .ok (g, tr) →
      ∃ b', from_netcdf_group g = .ok b' ∧ blockEquivB b b' = true := by
  intro b
  induction b using Block.strongInd with
  | h a d v bs ihchild =>
    intro env path g tr hwf hex hser
    simp only [wellFormedB, Bool.and_eq_true] at hwf
    obtain ⟨⟨⟨⟨hwa, hwd⟩, hwv⟩, hwbs⟩, hwgo⟩ := hwf
    simp only [exactShapesB, Bool.and_eq_true] at hex
    obtain ⟨hexv, hexgo⟩ := hex
    rw [to_netcdf_helper] at hser
    dsimp only at hser
    cases hwd2 : writeDims path [] d with
    | error e => rw [hwd2] at hser; simp at hser
    | ok outD =>
      rw [hwd2] at hser
      obtain ⟨dState, dEvs⟩ := outD
      simp only [bind_ok_ex] at hser
      obtain ⟨hdState, hdEvs⟩ := writeDims_ok d path [] dState dEvs hwd2
      simp only [List.nil_append] at hdState
      subst hdState
      cases hwv2 : writeVars path (declDims d) env [] v with
      | error e => rw [hwv2] at hser; simp at hser
      | ok outV =>
        rw [hwv2] at hser
        obtain ⟨vList, dState', vEvs⟩ := outV
        simp only [bind_ok_ex] at hser
        have hndd : nodupKeysB (declDims d) = true := by
          rw [declDims, nodupKeysB_map_val]
          exact hwd
        obtain ⟨hdS', ws', hvList, hfaV⟩ :=
          writeVars_exact v path (declDims d) env [] vList dState' vEvs hndd hwv2 hexv
        subst hdS'
        simp only [List.nil_append] at hvList
        subst hvList
        cases hwg2 : to_netcdf_helper.writeGroups (declDims d ++ env) path [] bs with
        | error e => rw [hwg2] at hser; simp at hser
        | ok outG =>
          rw [hwg2] at hser
          obtain ⟨gList, gEvs⟩ := outG
          simp only [bind_ok_ex, Except.ok.injEq, Prod.mk.injEq] at hser
          obtain ⟨hg, htr⟩ := hser
          obtain ⟨out, hgList, hgEvs, hndout, hfaG⟩ :=
            writeGroups_full bs (declDims d ++ env) path [] gList gEvs rfl hwg2
          simp only [List.nil_append] at hgList hndout
          subst hgList
          -- normalize the written attribute list to a map
          have haL : a.foldl (fun acc p => insertOver acc p.1 p.2.val) [] =
              a.map (fun p => (p.1, p.2.val)) := by
            have h0 := foldl_insertOver_eq (fun p => p.2.val) a []
              (fun p _ => rfl) hwa
            simpa using h0
          rw [haL] at hg
          rw [← hg]
          -- deserialize: attributes
          rw [from_netcdf_group, loadAttrs_ok]
          simp only [bind_ok_ex]
          have haL2 : (a.map (fun p => (p.1, p.2.val))).foldl
              (fun acc p => insertOver acc p.1 (.obj ⟨p.1, p.2⟩))
              Block.empty.attributes =
              a.map (fun p => (p.1, AttrCell.obj ⟨p.1, p.2.val⟩)) := by
            have h0 := foldl_insertOver_eq
              (fun p => AttrCell.obj ⟨p.1, p.2⟩) (a.map (fun p => (p.1, p.2.val))) []
              (fun p _ => rfl) (by rw [nodupKeysB_map_val]; exact hwa)
            rw [show Block.empty.attributes = ([] : List (String × AttrCell)) from rfl]
            rw [h0, List.nil_append, List.map_map]
            exact List.map_congr_left (fun p _ => rfl)
          rw [haL2]
          simp only [Block.empty, Block.withAttributes_mk]
          -- dimensions
          rw [loadDims_ok (declDims d)
            (Block.mk (a.map (fun p => (p.1, AttrCell.obj ⟨p.1, p.2.val⟩))) [] [] [])
            hndd (fun p _ => rfl)]
          simp only [bind_ok_ex, Block.withDimensions_mk, Block.dimensions_mk,
            List.nil_append]
          -- variables
          have hndws : nodupNamesB vList = true :=
            nodupNamesB_of_forall₂ v vList hfaV hwv
          rw [loadVars_ok vList
            (Block.mk (a.map (fun p => (p.1, AttrCell.obj ⟨p.1, p.2.val⟩)))
              ((declDims d).map (fun p => (p.1, DimCell.obj ⟨p.1, p.2.size⟩))) [] [])
            hndws (fun w _ => rfl)]
          simp only [bind_ok_ex, Block.withVars_mk, Block.vars_mk, List.nil_append]
          -- sub-blocks
          have hfaR : List.Forall₂ (fun (p : String × Block) (q : String × NCGroup) =>
              q.1 = p.1 ∧ ∃ b', from_netcdf_group q.2 = .ok b' ∧
                blockEquivB p.2 b' = true) bs (out.map (fun o => (o.1, o.2.1))) := by
            rw [List.forall₂_map_right_iff]
            apply forall₂_imp_mem bs out hfaG
            intro p hp o hro
            refine ⟨hro.1, ?_⟩
            exact ihchild p hp (declDims d ++ env) (path ++ [p.1]) o.2.1 o.2.2
              (wellFormedB_go_mem bs hwgo p hp)
              (exactShapesB_go_mem (declDims d ++ env) bs hexgo p hp)
              hro.2
          obtain ⟨subs, hgo, hfaE⟩ := goGroups_ok bs (out.map (fun o => (o.1, o.2.1)))
            (Block.mk (a.map (fun p => (p.1, AttrCell.obj ⟨p.1, p.2.val⟩)))
              ((declDims d).map (fun p => (p.1, DimCell.obj ⟨p.1, p.2.size⟩)))
              (vList.map (fun w =>
                (w.name, (⟨w.name, .native w.ty, w.dims, w.data⟩ : Variable)))) [])
            hfaR hwbs (fun p _ => rfl)
          rw [hgo]
          simp only [Block.withBlocks_mk, Block.blocks_mk, List.nil_append]
          refine ⟨_, rfl, ?_⟩
          -- structural equivalence of the two trees
          rw [blockEquivB]
          simp only [Bool.and_eq_true]
          have hD2 : (declDims d).map (fun p => (p.1, DimCell.obj ⟨p.1, p.2.size⟩)) =
              d.map (fun p => (p.1, DimCell.obj ⟨p.1, p.2.val⟩)) := by
            rw [declDims, List.map_map]
            exact List.map_congr_left (fun p _ => rfl)
          refine ⟨⟨⟨⟨⟨⟨?_, ?_⟩, ?_⟩, ?_⟩, ?_⟩, ?_⟩, ?_⟩
          · simp
          · exact zip_map_all a (fun q => AttrCell.obj ⟨q.1, q.2.val⟩) _
              (fun x _ => by simp [AttrCell.val, valEqB_refl])
          · rw [hD2]; simp
          · rw [hD2]
            exact zip_map_all d (fun q => DimCell.obj ⟨q.1, q.2.val⟩) _
              (fun x _ => by simp [DimCell.val])
          · simp [hfaV.length_eq]
          · apply all_zip_of_forall₂
              (fun (p : String × Variable) (q : String × Variable) =>
                q.1 = p.1 ∧ q.2.dimensions = p.2.dimensions ∧
                typeTagEqB p.2.var_type q.2.var_type = true ∧
                tensorEqB p.2.data q.2.data = true)
            · rw [List.forall₂_map_right_iff]
              apply List.Forall₂.imp ?_ hfaV
              intro p w hr
              obtain ⟨h1, h2, h3, h4⟩ := hr
              refine ⟨h1, h2, ?_, h4⟩
              unfold typeTagEqB
              rw [h3]
              simp [VType.resolve]
            · intro x y hr
              obtain ⟨h1, h2, h3, h4⟩ := hr
              have hk : (x.1 == y.1) = true := by simp [h1]
              have hv : varEqB x.2 y.2 = true := by
                rw [varEqB]
                simp only [Bool.and_eq_true]
                exact ⟨⟨by simp [h2], h3⟩, h4⟩
              simp [hk, hv]
          · exact equiv_go_of_forall₂ bs subs hfaE

/-! ### C1: serialize/deserialize round trip -/

/-- Counterexample to C1 as stated: `bcastBlock` is built through the
mutation API (dimension `T` of size 2, then a float variable on `T` whose
data is the scalar 5), serializes and deserializes without error, yet the
read-back tree is not structurally equal — the variable's data has been
broadcast to shape `[2]`. -/
theorem c1_roundtrip_counterexample :
    wellFormedB bcastBlock = true ∧
    to_netcdf_helper [] [] bcastBlock = .ok (bcastG, bcastTr) ∧
    from_netcdf_group bcastG = .ok bcastRead ∧
    blockEquivB bcastBlock bcastRead = false :=
  ⟨rfl, rfl, rfl, rfl⟩

/-- C1 (amended): for every well-formed Block tree whose variables' data
shapes exactly equal their declared dimensions' sizes, deserializing the
successfully serialized tree yields a structurally equal tree at every node:
same attribute name/value pairs, same dimension name/value pairs, same
variables (name, type tag, axis names, data), same child names with
recursively equal content.  (Data that is merely broadcastable — e.g. a
scalar against a declared axis — is filled during the write and reads back
expanded, so exact shape agreement is required for literal equality.) -/
theorem c1_roundtrip (b : Block) (g : NCGroup) (tr : List Ev)
    (hwf : wellFormedB b = true) (hex : exactShapesB [] b = true)
    (hser : to_netcdf_helper [] [] b = .ok (g, tr)) :
    ∃ b', from_netcdf_group g = .ok b' ∧ blockEquivB b b' = true :=
  roundtrip_aux b [] [] g tr hwf hex hser

/-- A block built via the mutation API: an attribute, a dimension, an
exactly-shaped variable and a sub-block. -/
def rtChild : Block := (Block.empty.add_attribute "kind" (.inl (.s "leaf")) false).2

/-- The two-level block used by the C1 witness. -/
def rtBlock : Block :=
  let b0 := (Block.empty.add_attribute "id" (.inl (.s "0")) false).2
  let b1 := (b0.add_dimension "T" (.inl 2) false).2
  let b2 := (b1.add_variable "y" (.fields (.tag "u4") ["T"] ⟨[2], [.i 1, .i 2]⟩) false).2
  (b2.add_block_obj "Sub" rtChild false).2

/-- The group `rtBlock` serializes to. -/
def rtG : NCGroup :=
  .mk [("id", .s "0")] [("T", ⟨2, false⟩)]
    [⟨"y", .u4, ["T"], ⟨[2], [.i 1, .i 2]⟩⟩]
    [("Sub", .mk [("kind", .s "leaf")] [] [] [])]

/-- The write trace of serializing `rtBlock`. -/
def rtTr : List Ev :=
  [⟨[], .attrW, "id"⟩, ⟨[], .dimW, "T"⟩, ⟨[], .varW, "y"⟩, ⟨[], .grpW, "Sub"⟩,
   ⟨["Sub"], .attrW, "kind"⟩]

/-- Witness for C1 at `rtBlock`. -/
theorem c1_roundtrip_witness :
    ∃ b', from_netcdf_group rtG = .ok b' ∧ blockEquivB rtBlock b' = true :=
  c1_roundtrip rtBlock rtG rtTr rfl rfl rfl

/-! ### C8 infrastructure: where every write event lives -/

theorem append_cons_ne (l : List String) (c : String) (s : List String) :
    l ++ c :: s ≠ l := by
  intro h
  have := congrArg List.length h
  simp at this

theorem forall₂_mem_right {R : α → β → Prop} (l : List α) (l' : List β)
    (h : List.Forall₂ R l l') (b : β) (hb : b ∈ l') : ∃ a ∈ l, R a b := by
  induction h with
  | nil => cases hb
  | @cons x y t t' hr _ ih =>
    rw [List.mem_cons] at hb
    rcases hb with hb | hb
    · exact ⟨x, by simp, hb ▸ hr⟩
    · obtain ⟨a, ha, har⟩ := ih hb
      exact ⟨a, by simp [ha], har⟩

/-- Every event emitted while serializing a node at `path` lives at `path`
or below it. -/
theorem trace_paths :
    ∀ b : Block, ∀ (env : List (String × NCDim)) (path : List String)
      (g : NCGroup) (tr : List Ev),
      to_netcdf_helper env path b = .ok (g, tr) →
      ∀ e ∈ tr, ∃ s, e.path = path ++ s := by
  intro b
  induction b using Block.strongInd with
  | h a d v bs ih =>
    intro env path g tr hser e he
    rw [to_netcdf_helper] at hser
    dsimp only at hser
    cases hwd2 : writeDims path [] d with
    | error er => rw [hwd2] at hser; simp at hser
    | ok outD =>
      rw [hwd2] at hser
      obtain ⟨dState, dEvs⟩ := outD
      simp only [bind_ok_ex] at hser
      cases hwv2 : writeVars path dState env [] v with
      | error er => rw [hwv2] at hser; simp at hser
      | ok outV =>
        rw [hwv2] at hser
        obtain ⟨vList, dState', vEvs⟩ := outV
        simp only [bind_ok_ex] at hser
        cases hwg2 : to_netcdf_helper.writeGroups (dState' ++ env) path [] bs with
        | error er => rw [hwg2] at hser; simp at hser
        | ok outG =>
          rw [hwg2] at hser
          obtain ⟨gList, gEvs⟩ := outG
          simp only [bind_ok_ex, Except.ok.injEq, Prod.mk.injEq] at hser
          obtain ⟨hdEq, hdEvs⟩ := writeDims_ok d path [] dState dEvs hwd2
          have hvEvs := writeVars_evs v path dState env [] vList dState' vEvs hwv2
          obtain ⟨out, hgList, hgEvs, hndout, hfaG⟩ :=
            writeGroups_full bs (dState' ++ env) path [] gList gEvs rfl hwg2
          rw [← hser.2] at he
          rw [List.mem_append, List.mem_append, List.mem_append] at he
          rcases he with ((he | he) | he) | he
          · rw [List.mem_map] at he
            obtain ⟨q, _, hq⟩ := he
            exact ⟨[], by rw [← hq]; simp⟩
          · rw [hdEvs, List.mem_map] at he
            obtain ⟨q, _, hq⟩ := he
            exact ⟨[], by rw [← hq]; simp⟩
          · rw [hvEvs, List.mem_map] at he
            obtain ⟨q, _, hq⟩ := he
            exact ⟨[], by rw [← hq]; simp⟩
          · rw [hgEvs, List.mem_flatten] at he
            obtain ⟨part, hpart, hepart⟩ := he
            rw [List.mem_map] at hpart
            obtain ⟨o, ho, hop⟩ := hpart
            obtain ⟨p, hp, hserp⟩ := forall₂_mem_right bs out hfaG o ho
            rw [← hop, List.mem_cons] at hepart
            rcases hepart with hepart | hepart
            · exact ⟨[], by rw [hepart]; simp⟩
            · obtain ⟨s, hs⟩ := ih p hp (dState' ++ env) (path ++ [p.1])
                o.2.1 o.2.2 hserp.2 e hepart
              exact ⟨[p.1] ++ s, by rw [hs, List.append_assoc]⟩

/-- The events the serializer emits for the entries of one node placed at
`pt`: its attributes, then its dimensions, then its variables, then its
sub-groups, each category in insertion order. -/
def nodeEvs (pt : List String) : Block → List Ev
  | .mk a d v bs =>
    a.map (fun q => (⟨pt, .attrW, q.1⟩ : Ev)) ++
    d.map (fun q => (⟨pt, .dimW, q.1⟩ : Ev)) ++
    v.map (fun q => (⟨pt, .varW, q.1⟩ : Ev)) ++
    bs.map (fun q => (⟨pt, .grpW, q.1⟩ : Ev))

theorem append_singleton_cons (l : List String) (k : String) (s : List String) :
    (l ++ [k]) ++ s = l ++ k :: s := by
  rw [List.append_assoc]
  rfl

theorem append_cons_head_eq (l : List String) (x y : String) (s s' : List String)
    (h : l ++ x :: s = l ++ y :: s') : x = y := by
  have h2 := List.append_cancel_left h
  injection h2

theorem filter_map_keep (tgt : List String) (kd : EvKind) (l : List (String × α)) :
    ((l.map (fun q => (⟨tgt, kd, q.1⟩ : Ev))).filter (fun e => e.path == tgt)) =
      l.map (fun q => (⟨tgt, kd, q.1⟩ : Ev)) := by
  rw [List.filter_eq_self]
  intro e he
  rw [List.mem_map] at he
  obtain ⟨q, _, hq⟩ := he
  rw [← hq]
  simp

theorem filter_map_drop (pt tgt : List String) (kd : EvKind) (l : List (String × α))
    (hne : pt ≠ tgt) :
    ((l.map (fun q => (⟨pt, kd, q.1⟩ : Ev))).filter (fun e => e.path == tgt)) = [] := by
  rw [List.filter_eq_nil_iff]
  intro e he
  rw [List.mem_map] at he
  obtain ⟨q, _, hq⟩ := he
  rw [← hq]
  simpa using hne

/-- One serialized sub-block contributes nothing to the trace filtered at a
target its own subtree never reaches. -/
theorem filter_part_nil (path tgt : List String) (nm k0 : String)
    (env' : List (String × NCDim)) (sub : Block) (g0 : NCGroup) (tr0 : List Ev)
    (hser : to_netcdf_helper env' (path ++ [k0]) sub = .ok (g0, tr0))
    (hne1 : path ≠ tgt)
    (hne2 : ∀ s, path ++ k0 :: s ≠ tgt) :
    ((⟨path, .grpW, nm⟩ : Ev) :: tr0).filter (fun e => e.path == tgt) = [] := by
  rw [List.filter_cons, if_neg (by simpa using hne1), List.filter_eq_nil_iff]
  intro e he
  obtain ⟨s, hs⟩ := trace_paths sub env' (path ++ [k0]) g0 tr0 hser e he
  rw [hs, append_singleton_cons]
  simpa using hne2 s

/-- Filtering the concatenated child traces at the node's own path keeps
exactly the group-creation events, in insertion order. -/
theorem c8_groups_self (env' : List (String × NCDim)) (path : List String) :
    ∀ (bs : List (String × Block)) (out : List (String × NCGroup × List Ev)),
      List.Forall₂ (fun (p : String × Block) (o : String × NCGroup × List Ev) =>
        o.1 = p.1 ∧ to_netcdf_helper env' (path ++ [p.1]) p.2 = .ok (o.2.1, o.2.2)) bs out →
      ((out.map (fun o => (⟨path, .grpW, o.1⟩ : Ev) :: o.2.2)).flatten).filter
        (fun e => e.path == path) = bs.map (fun q => (⟨path, .grpW, q.1⟩ : Ev)) := by
  intro bs out hfa
  induction hfa with
  | nil => rfl
  | @cons p o t t' hr _ ih =>
    have h2 : o.2.2.filter (fun e => e.path == path) = [] := by
      rw [List.filter_eq_nil_iff]
      intro e he
      obtain ⟨s, hs⟩ := trace_paths p.2 env' (path ++ [p.1]) o.2.1 o.2.2 hr.2 e he
      rw [hs, append_singleton_cons]
      simp [append_cons_ne path p.1 s]
    rw [List.map_cons, List.flatten_cons, List.filter_append, ih, List.filter_cons,
      if_pos (by simp), h2, hr.1, List.map_cons]
    rfl

/-- When no child of the walked tail is named `k`, the concatenated child
traces contribute nothing at a target below `k`. -/
theorem c8_groups_skip (env' : List (String × NCDim)) (path : List String)
    (k : String) (rest : List String) :
    ∀ (t : List (String × Block)) (out : List (String × NCGroup × List Ev)),
      List.Forall₂ (fun (p : String × Block) (o : String × NCGroup × List Ev) =>
        o.1 = p.1 ∧ to_netcdf_helper env' (path ++ [p.1]) p.2 = .ok (o.2.1, o.2.2)) t out →
      (∀ q ∈ t, q.1 ≠ k) →
      ((out.map (fun o => (⟨path, .grpW, o.1⟩ : Ev) :: o.2.2)).flatten).filter
        (fun e => e.path == path ++ k :: rest) = [] := by
  intro t out hfa
  induction hfa with
  | nil => intro _; rfl
  | @cons p o t' out' hr _ ih =>
    intro hne
    rw [List.map_cons, List.flatten_cons, List.filter_append]
    rw [filter_part_nil path (path ++ k :: rest) o.1 p.1 env' p.2 o.2.1 o.2.2 hr.2
      (Ne.symm (append_cons_ne path k rest))
      (fun s hs => hne p (List.mem_cons_self p t') (append_cons_head_eq path p.1 k s rest hs))]
    rw [ih (fun q hq => hne q (List.mem_cons_of_mem p hq))]
    rfl

/-- Walking the serialized children to the one named `k` isolates that
child's subtree trace at a target below `k`. -/
theorem c8_groups_descend (env' : List (String × NCDim)) (path : List String)
    (k : String) (rest : List String) (sub : Block) :
    ∀ (bs : List (String × Block)) (out : List (String × NCGroup × List Ev)),
      List.Forall₂ (fun (p : String × Block) (o : String × NCGroup × List Ev) =>
        o.1 = p.1 ∧ to_netcdf_helper env' (path ++ [p.1]) p.2 = .ok (o.2.1, o.2.2)) bs out →
      nodupKeysB bs = true →
      (∀ p ∈ bs, ∀ (g' : NCGroup) (tr' : List Ev),
        to_netcdf_helper env' (path ++ [p.1]) p.2 = .ok (g', tr') →
        ∀ (p'' : List String) (sub'' : Block), getPath p.2 p'' = some sub'' →
          tr'.filter (fun e => e.path == (path ++ [p.1]) ++ p'') =
            nodeEvs ((path ++ [p.1]) ++ p'') sub'') →
      ∀ c : Block, bs.lookup k = some c →
      getPath c rest = some sub →
      ((out.map (fun o => (⟨path, .grpW, o.1⟩ : Ev) :: o.2.2)).flatten).filter
        (fun e => e.path == path ++ k :: rest) = nodeEvs (path ++ k :: rest) sub := by
  intro bs out hfa
  induction hfa with
  | nil =>
    intro _ _ c hlk
    simp [List.lookup] at hlk
  | @cons p o t' out' hr hfa' ih =>
    intro hnd hIH c hlk hgp
    obtain ⟨k0, c0⟩ := p
    rw [nodupKeysB, Bool.and_eq_true, Bool.not_eq_true'] at hnd
    obtain ⟨hkey, hnd'⟩ := hnd
    rw [List.map_cons, List.flatten_cons, List.filter_append]
    by_cases hk : (k == k0) = true
    · simp only [List.lookup, hk] at hlk
      have hke : k = k0 := by simpa using hk
      subst hke
      have hc0 : c0 = c := by simpa using hlk
      subst hc0
      rw [List.filter_cons, if_neg (by simp [Ne.symm (append_cons_ne path k rest)])]
      have hmain := hIH (k, c0) (List.mem_cons_self (k, c0) t') o.2.1 o.2.2 hr.2 rest sub hgp
      rw [append_singleton_cons] at hmain
      rw [hmain]
      rw [c8_groups_skip env' path k rest t' out' hfa'
        (not_mem_keys_of_hasKey_false t' k hkey)]
      rw [List.append_nil]
    · have hkne : k ≠ k0 := by simpa using hk
      have hkf : (k == k0) = false := by simpa using hk
      simp only [List.lookup, hkf] at hlk
      rw [filter_part_nil path (path ++ k :: rest) o.1 k0 env' c0 o.2.1 o.2.2 hr.2
        (Ne.symm (append_cons_ne path k rest))
        (fun s hs => hkne (append_cons_head_eq path k0 k s rest hs).symm)]
      rw [List.nil_append]
      exact ih hnd' (fun q hq => hIH q (List.mem_cons_of_mem (k0, c0) hq)) c hlk hgp

/-- C8: during serialization of every node, writes occur in the fixed order
attributes, then dimensions, then variables, then child groups — so every
variable is created after all of its referenced dimensions are declared in
the same node — and within each of the four categories entries are written
in insertion order: for every node of a well-formed tree (addressed by a
path `p'` of sub-block names), the events of the serialization trace whose
group path is that node's are exactly the node's attribute events, then its
dimension events, then its variable events, then its sub-group creation
events, each in the insertion order of the corresponding mapping. -/
theorem c8_trace_order :
    ∀ b : Block, ∀ (env : List (String × NCDim)) (path : List String)
      (g : NCGroup) (tr : List Ev),
      wellFormedB b = true →
      to_netcdf_helper env path b = .ok (g, tr) →
      ∀ (p' : List String) (sub : Block), getPath b p' = some sub →
      tr.filter (fun e => e.path == path ++ p') = nodeEvs (path ++ p') sub := by
  intro b
  induction b using Block.strongInd with
  | h a d v bs ih =>
    intro env path g tr hwf hser p' sub hgp
    rw [wellFormedB] at hwf
    simp only [Bool.and_eq_true] at hwf
    obtain ⟨⟨⟨⟨_, _⟩, _⟩, hndbs⟩, hgo⟩ := hwf
    have hchild := wellFormedB_go_mem bs hgo
    rw [to_netcdf_helper] at hser
    dsimp only at hser
    cases hwd2 : writeDims path [] d with
    | error er => rw [hwd2] at hser; simp at hser
    | ok outD =>
      rw [hwd2] at hser
      obtain ⟨dState, dEvs⟩ := outD
      simp only [bind_ok_ex] at hser
      cases hwv2 : writeVars path dState env [] v with
      | error er => rw [hwv2] at hser; simp at hser
      | ok outV =>
        rw [hwv2] at hser
        obtain ⟨vList, dState', vEvs⟩ := outV
        simp only [bind_ok_ex] at hser
        cases hwg2 : to_netcdf_helper.writeGroups (dState' ++ env) path [] bs with
        | error er => rw [hwg2] at hser; simp at hser
        | ok outG =>
          rw [hwg2] at hser
          obtain ⟨gList, gEvs⟩ := outG
          simp only [bind_ok_ex, Except.ok.injEq, Prod.mk.injEq] at hser
          obtain ⟨_, hdEvs⟩ := writeDims_ok d path [] dState dEvs hwd2
          have hvEvs := writeVars_evs v path dState env [] vList dState' vEvs hwv2
          obtain ⟨out, _, hgEvs, _, hfaG⟩ :=
            writeGroups_full bs (dState' ++ env) path [] gList gEvs rfl hwg2
          rw [← hser.2, hdEvs, hvEvs, hgEvs]
          rw [List.filter_append, List.filter_append, List.filter_append]
          cases p' with
          | nil =>
            simp only [getPath, Option.some.injEq] at hgp
            subst hgp
            rw [List.append_nil]
            rw [filter_map_keep path .attrW a, filter_map_keep path .dimW d,
              filter_map_keep path .varW v,
              c8_groups_self (dState' ++ env) path bs out hfaG]
            rfl
          | cons k rest =>
            have hne : path ≠ path ++ k :: rest := Ne.symm (append_cons_ne path k rest)
            simp only [getPath, Block.blocks] at hgp
            cases hlk : bs.lookup k with
            | none => rw [hlk] at hgp; simp at hgp
            | some c =>
              rw [hlk] at hgp
              have hIH' : ∀ p ∈ bs, ∀ (g' : NCGroup) (tr' : List Ev),
                  to_netcdf_helper (dState' ++ env) (path ++ [p.1]) p.2 = .ok (g', tr') →
                  ∀ (p'' : List String) (sub'' : Block), getPath p.2 p'' = some sub'' →
                    tr'.filter (fun e => e.path == (path ++ [p.1]) ++ p'') =
                      nodeEvs ((path ++ [p.1]) ++ p'') sub'' :=
                fun p hp g' tr' hser' p'' sub'' hgp'' =>
                  ih p hp (dState' ++ env) (path ++ [p.1]) g' tr' (hchild p hp)
                    hser' p'' sub'' hgp''
              rw [filter_map_drop path (path ++ k :: rest) .attrW a hne,
                filter_map_drop path (path ++ k :: rest) .dimW d hne,
                filter_map_drop path (path ++ k :: rest) .varW v hne,
                c8_groups_descend (dState' ++ env) path k rest sub bs out hfaG
                  hndbs hIH' c hlk hgp]
              rfl

/-- The sub-block of the C8 witness tree. -/
def c8Sub : Block := (Block.empty.add_attribute "kind" (.inl (.s "leaf")) false).2

/-- A two-level block built via the mutation API for the C8 witness. -/
def c8Block : Block :=
  let b0 := (Block.empty.add_attribute "n" (.inl (.i 1)) false).2
  let b1 := (b0.add_dimension "T" (.inl 2) false).2
  let b2 := (b1.add_variable "x" (.fields (.tag "u4") ["T"] ⟨[2], [.i 3, .i 4]⟩) false).2
  (b2.add_block_obj "Sub" c8Sub false).2

/-- The group `c8Block` serializes to. -/
def c8G : NCGroup :=
  .mk [("n", .i 1)] [("T", ⟨2, false⟩)]
    [⟨"x", .u4, ["T"], ⟨[2], [.i 3, .i 4]⟩⟩]
    [("Sub", .mk [("kind", .s "leaf")] [] [] [])]

/-- The write trace of serializing `c8Block`: attribute, dimension, variable
and group writes of the root, then the sub-block's writes. -/
def c8Tr : List Ev :=
  [⟨[], .attrW, "n"⟩, ⟨[], .dimW, "T"⟩, ⟨[], .varW, "x"⟩, ⟨[], .grpW, "Sub"⟩,
   ⟨["Sub"], .attrW, "kind"⟩]

/-- Witness for C8 at `c8Block`, filtering the trace at the sub-block. -/
theorem c8_trace_order_witness :
    wellFormedB c8Block = true ∧
    to_netcdf_helper [] [] c8Block = .ok (c8G, c8Tr) ∧
    getPath c8Block ["Sub"] = some c8Sub ∧
    c8Tr.filter (fun e => e.path == [] ++ ["Sub"]) = nodeEvs ([] ++ ["Sub"]) c8Sub :=
  ⟨rfl, rfl, rfl,
    c8_trace_order c8Block [] [] c8G c8Tr rfl rfl ["Sub"] c8Sub rfl⟩

end PySMSpp
